import Mathlib

/-!
# Verification of the `digitloom` digit-generation and packaging core

Shallow embedding of the `digitloom` Python package (files
`digitloom/constants.py`, `digitloom/bbp.py`, `digitloom/chudnovsky.py`,
`digitloom/chunked.py`, `digitloom/crypto.py`, `digitloom/verify.py`)
together with proofs of the spec-level claims about it.

Conventions used throughout:
* Python unbounded integers are `ℤ` (or `ℕ` where the source value is
  provably non-negative); Python floor division `//` is `Int.fdiv`.
* `mpmath`/`decimal` arbitrary-precision arithmetic is modelled exactly
  over `ℚ`/scaled integers, mirroring the operation sequence of the source.
* Unbounded Python generators/`while` loops are modelled with an explicit
  fuel parameter; every theorem instance uses fuel large enough that the
  modelled loop reaches its exit condition, mirroring the source loop.
-/

namespace Digitloom

/-- Decidable equality for `Except`, so concrete results (including
error outcomes) can be checked by `decide`. -/
instance exceptDecEq {ε α : Type} [DecidableEq ε] [DecidableEq α] :
    DecidableEq (Except ε α) := fun a b =>
  match a, b with
  | .ok x, .ok y =>
    if h : x = y then isTrue (by rw [h]) else isFalse (by simp [h])
  | .error x, .error y =>
    if h : x = y then isTrue (by rw [h]) else isFalse (by simp [h])
  | .ok _, .error _ => isFalse (by simp)
  | .error _, .ok _ => isFalse (by simp)

/-! ## Spigot π generator (`digitloom/constants.py`, `pi_digits_spigot`)

The generator's running state `(q, r, t, k, n, l)`; one `step` is one
iteration of the `while True` body.  `step` returns the successor state
together with `some digit` when the iteration took the `yield` branch. -/

structure SpigotState where
  q : ℤ
  r : ℤ
  t : ℤ
  k : ℤ
  n : ℤ
  l : ℤ
  deriving Repr, DecidableEq

/-- Initial state `(1, 0, 1, 1, 3, 3)` of `pi_digits_spigot`. -/
def spigotInit : SpigotState := ⟨1, 0, 1, 1, 3, 3⟩

/-- One iteration of the `while True` loop of `pi_digits_spigot`:
the emitted digit (if the `yield` branch ran) and the updated state. -/
def spigotStep (s : SpigotState) : Option ℤ × SpigotState :=
  if 4 * s.q + s.r - s.t < s.n * s.t then
    (some s.n,
      ⟨10 * s.q, 10 * (s.r - s.n * s.t), s.t, s.k,
        (Int.fdiv (10 * (3 * s.q + s.r)) s.t) - 10 * s.n, s.l⟩)
  else
    (none,
      ⟨s.q * s.k, (2 * s.q + s.r) * s.l, s.t * s.l, s.k + 1,
        Int.fdiv (s.q * (7 * s.k + 2) + s.r * s.l) (s.t * s.l), s.l + 2⟩)

/-- The state after `n` iterations of the loop, from a given state. -/
def spigotIter : ℕ → SpigotState → SpigotState
  | 0, s => s
  | n + 1, s => spigotIter n (spigotStep s).2

/-- Run the generator for at most `fuel` loop iterations, collecting the
digits emitted (in order).  `pi_digits_spigot` run long enough emits the
same digits as this list, in order. -/
def spigotDigits : ℕ → SpigotState → List ℤ
  | 0, _ => []
  | fuel + 1, s =>
    match spigotStep s with
    | (some d, s') => d :: spigotDigits fuel s'
    | (none, s') => spigotDigits fuel s'

/-- `format_spigot_pi` (`digitloom/constants.py`): raise on
`prefix_digits < 1`, otherwise `str(first) + "." + str(d2) + ... `.
51 digits are emitted within 6·51+10 loop iterations, so the fuel
`6·prefix + 10` covers every instance proved about below. -/
def format_spigot_pi (prefix_digits : ℤ) : Except String String :=
  if prefix_digits < 1 then .error "prefix_digits must be >= 1"
  else
    let ds := spigotDigits (6 * prefix_digits.toNat + 10) spigotInit
    .ok (toString (ds.headD 0) ++ "." ++
      String.join ((ds.tail.take (prefix_digits.toNat - 1)).map toString))

/-- The structural invariant that actually holds on every reachable
spigot state (the spec additionally asserts `r ≥ 0`, which fails). -/
def SpigotInv (s : SpigotState) : Prop :=
  1 ≤ s.q ∧ 1 ≤ s.t ∧ 3 ≤ s.l ∧ 1 ≤ s.k

instance (s : SpigotState) : Decidable (SpigotInv s) := by
  unfold SpigotInv; infer_instance

/-! ## Precision planner (`digitloom/constants.py`, `compute_precision`)

The source is `int(math.ceil(digits * math.log10(base))) + int(guard)`,
with no validation of `digits`.  The float expression
`ceil(digits * log10(base))` is modelled exactly over the reals; the
executable integer form below computes that exact value via `Nat.clog`
(ceiling log) and `Nat.log` (floor log), as proved in
`compute_precision_eq_ceil_logb`. -/
def compute_precision (digits : ℤ) (base : ℕ) (guard : ℤ := 30) : ℤ :=
  (if 0 ≤ digits then (Nat.clog 10 (base ^ digits.toNat) : ℤ)
   else -(Nat.log 10 (base ^ (-digits).toNat) : ℤ)) + guard

/-! ## BBP hex-digit extractor (`digitloom/bbp.py`)

`mpmath` binary floating point at `prec` bits is modelled by exact
rational arithmetic; rationals are unreduced numerator/denominator pairs
(`Frac`, all denominators positive by construction) so that every value
kernel-evaluates.  The structure of `_series` — the modular finite sum
with per-step `floor` reduction, and the `while term >= eps` tail — is
mirrored operation for operation, with the `while` loop given `prec`
steps of fuel (its exit test `term < eps` fires after at most
`(prec-16)/4 + 1` iterations, far below `prec`). -/

structure Frac where
  n : ℤ
  d : ℤ
  deriving Repr, DecidableEq

def fAdd (a b : Frac) : Frac := ⟨a.n * b.d + b.n * a.d, a.d * b.d⟩

def fSub (a b : Frac) : Frac := ⟨a.n * b.d - b.n * a.d, a.d * b.d⟩

def fMul (a b : Frac) : Frac := ⟨a.n * b.n, a.d * b.d⟩

def fDiv (a b : Frac) : Frac := ⟨a.n * b.d, a.d * b.n⟩

/-- `a < b`, valid when both denominators are positive. -/
def fLt (a b : Frac) : Bool := a.n * b.d < b.n * a.d

def fFloor (a : Frac) : ℤ := Int.fdiv a.n a.d

/-- `x % 1` / `x - floor(x)`. -/
def fFracPart (a : Frac) : Frac := fSub a ⟨fFloor a, 1⟩

/-- The `for k in range(n+1)` loop of `_series`: add
`pow(16, n-k, r) / r`, then reduce by `s - floor(s)`. -/
def seriesHead (j n : ℕ) : Frac :=
  (List.range (n + 1)).foldl
    (fun s k =>
      let r := 8 * k + j
      fFracPart (fAdd s ⟨((16 ^ (n - k) % r : ℕ) : ℤ), (r : ℤ)⟩)) ⟨0, 1⟩

/-- The `while True` tail loop of `_series`: accumulate `pow16 / r`
until `term < eps`, with `fuel` bounding the iteration count. -/
def seriesTailAux (j : ℕ) (eps : Frac) : ℕ → ℕ → Frac → Frac → Frac
  | 0, _, _, acc => acc
  | fuel + 1, k, pow16, acc =>
    let r := 8 * k + j
    let term := fDiv pow16 ⟨(r : ℤ), 1⟩
    if fLt term eps then acc
    else seriesTailAux j eps fuel (k + 1) (fDiv pow16 ⟨16, 1⟩) (fAdd acc term)

/-- `_series(j, n, prec)`: finite modular sum plus truncated tail,
reduced mod 1.  `eps = 2^(16 - prec)` (`prec ≥ 128` at every call). -/
def series (j n prec : ℕ) : Frac :=
  let s := seriesHead j n
  let eps : Frac := ⟨1, (2 : ℤ) ^ (prec - 16)⟩
  let t := seriesTailAux j eps prec (n + 1) ⟨1, 16⟩ ⟨0, 1⟩
  fFracPart (fAdd s t)

/-- Fuelled floor of `log2` (`intLog2 fuel x = ⌊log2 x⌋` whenever
`fuel ≥ x ≥ 1`); models `int(math.log2(·))` exactly. -/
def intLog2 : ℕ → ℕ → ℕ
  | 0, _ => 0
  | fuel + 1, x => if x ≤ 1 then 0 else intLog2 fuel (x / 2) + 1

/-- `_prec_bits(n)`: `128` for `n < 1`, else
`max(128, int(log2(n+1)) + 128)`. -/
def precBits (n : ℤ) : ℕ :=
  if n < 1 then 128 else max 128 (intLog2 (n.toNat + 1) (n.toNat + 1) + 128)

/-- Body of `pi_hex_digit` after the `n < 0` guard:
`floor(16 * ((4·S1 - 2·S4 - S5 - S6) mod 1))`. -/
def piHexDigitCore (n : ℕ) : ℤ :=
  let prec := precBits n
  let s1 := series 1 n prec
  let s4 := series 4 n prec
  let s5 := series 5 n prec
  let s6 := series 6 n prec
  let x0 := fSub (fSub (fSub (fMul ⟨4, 1⟩ s1) (fMul ⟨2, 1⟩ s4)) s5) s6
  fFloor (fMul ⟨16, 1⟩ (fFracPart x0))

/-- `pi_hex_digit(n)`: `ValueError` on `n < 0`. -/
def pi_hex_digit (n : ℤ) : Except String ℤ :=
  if n < 0 then .error "n must be >= 0" else .ok (piHexDigitCore n.toNat)

/-- `pi_hex_digits(start, count)`: per-position digits concatenated
through the uppercase hex alphabet. -/
def pi_hex_digits (start count : ℤ) : Except String String :=
  if start < 0 then .error "start must be >= 0"
  else if count < 0 then .error "count must be >= 0"
  else .ok ⟨(List.range count.toNat).map (fun i =>
    "0123456789ABCDEF".toList.getD (piHexDigitCore (start.toNat + i)).toNat 'X')⟩

/-! ## Verification oracle (`digitloom/verify.py`)

`_mp_prefix` (the general `mpmath` recomputation path) depends on
arbitrary-precision evaluation of arbitrary constants, so it enters the
model as an opaque function argument `mpPrefix`; the properties proved
below assume of it only what `src/digitloom/streaming.py` guarantees
(it returns exactly the requested number of digit characters).  The two
π fast paths are modelled concretely from the source. -/

/-- `_pi_spigot_prefix(count)`: drop the leading `3`, then the next
`count` spigot digits concatenated (fuel as in `format_spigot_pi`). -/
def piSpigotPrefix (count : ℕ) : String :=
  String.join ((((spigotDigits (6 * count + 16) spigotInit).drop 1).take count).map toString)

/-- `pi_hex_digits(0, count)` for `count ≥ 0` (the only way
`verify_fractional_digits` calls it, so no validation can fire). -/
def piHexPrefixStr (count : ℕ) : String :=
  ⟨(List.range count).map (fun i =>
    "0123456789ABCDEF".toList.getD (piHexDigitCore i).toNat 'X')⟩

/-- `str.upper()` on ASCII content (`Char.toUpper` per character). -/
def strUpper (s : String) : String := ⟨s.data.map Char.toUpper⟩

/-- `verify_fractional_digits(constant_name, expr, base, samples,
fractional_digits)`; `mpPrefix` stands for `_mp_prefix`. -/
def verify_fractional_digits (mpPrefix : String → String → ℤ → ℤ → String)
    (constant_name expr : String) (base samples : ℤ)
    (fractional_digits : String) : Bool × String :=
  if samples ≤ 0 then (true, "verification skipped")
  else if constant_name = "Pi (π)" ∧ base = 10 then
    let expected := piSpigotPrefix (min samples (fractional_digits.length : ℤ)).toNat
    (expected == fractional_digits.take expected.length, "pi spigot")
  else if constant_name = "Pi (π)" ∧ base = 16 then
    let count := (min samples (fractional_digits.length : ℤ)).toNat
    (piHexPrefixStr count == strUpper (fractional_digits.take count), "pi bbp")
  else
    let expected := mpPrefix constant_name expr base (min samples (fractional_digits.length : ℤ))
    (expected == fractional_digits.take expected.length, "mp stability")

/-! ## Chudnovsky binary-splitting engine (`digitloom/chudnovsky.py`)

`_bs` is modelled with an explicit fuel argument (the source recursion
halves the range, so fuel `b - a` always suffices; `_bs` passes exactly
that).  The float expression `int(digits / 14.181647462725477)` is
modelled as the exact rational floor `digits·10^15 / 14181647462725477`.
The `decimal` arithmetic of the final evaluation (context precision
`digits + 20`, `ROUND_HALF_EVEN`) is modelled exactly over scaled
integers `(coefficient, exponent)`: each binary operation and the square
root produce the correctly rounded result at `prec` significant digits,
as the `decimal` specification prescribes (representations are not
re-normalised on exact results, which never changes the rendered
value). -/

structure BSTuple where
  p : ℤ
  q : ℤ
  t : ℤ
  deriving Repr, DecidableEq

def chudA : ℤ := 13591409

def chudB : ℤ := 545140134

/-- `_C3_OVER_24 = 640320^3 / 24`. -/
def chudC3Over24 : ℤ := 10939058860032000

/-- The leaf tuple of `_bs` for the single-term range `[k, k+1)`. -/
def bsTerm (k : ℕ) : BSTuple :=
  if k = 0 then ⟨1, 1, chudA⟩
  else
    ⟨(6 * (k : ℤ) - 5) * (2 * (k : ℤ) - 1) * (6 * (k : ℤ) - 1),
     (k : ℤ) * (k : ℤ) * (k : ℤ) * chudC3Over24,
     (if k % 2 = 1 then -1 else 1) *
       ((6 * (k : ℤ) - 5) * (2 * (k : ℤ) - 1) * (6 * (k : ℤ) - 1)) * (chudA + chudB * (k : ℤ))⟩

/-- `_combine` (also the combination step inside `_bs`). -/
def _combine (x y : BSTuple) : BSTuple :=
  ⟨x.p * y.p, x.q * y.q, x.t * y.q + x.p * y.t⟩

/-- `_bs(a, b)` with fuel; the recursion halves `b - a`, so fuel
`b - a` (what `_bs` below supplies) always reaches the leaves. -/
def bsAux : ℕ → ℕ → ℕ → BSTuple
  | 0, _, _ => ⟨1, 1, 0⟩
  | fuel + 1, a, b =>
    if b - a = 1 then bsTerm a
    else _combine (bsAux fuel a ((a + b) / 2)) (bsAux fuel ((a + b) / 2) b)

def _bs (a b : ℕ) : BSTuple := bsAux (b - a) a b

/-- The ordered product `⨂_{k ∈ [a,b)} term_k` under `_combine`:
the specification of what any splitting of `[a,b)` must produce. -/
def prodRange (a b : ℕ) : BSTuple :=
  ((List.range' a (b - a)).map bsTerm).foldl _combine ⟨1, 1, 0⟩

/-- `terms = int(digits_after_point / 14.181647462725477) + 2`. -/
def chudTerms (digits : ℕ) : ℕ := digits * 10 ^ 15 / 14181647462725477 + 2

/-- The partition bounds `[0, terms·1//cc, ..., terms·cc//cc]`. -/
def chudBounds (terms cc : ℕ) : List ℕ :=
  0 :: (List.range cc).map (fun i => terms * (i + 1) / cc)

/-- The parallel path: compute `_bs` on each contiguous sub-range and
fold the partial tuples left-to-right with `_combine` from `(1,1,0)`. -/
def chudParallel (terms cc : ℕ) : BSTuple :=
  (((chudBounds terms cc).zip (chudBounds terms cc).tail).map
    (fun r => _bs r.1 r.2)).foldl _combine ⟨1, 1, 0⟩

/-- Number of decimal digits of `n` (1 for `n = 0`), with fuel. -/
def digitCount : ℕ → ℕ → ℕ
  | 0, _ => 1
  | fuel + 1, n => if n < 10 then 1 else digitCount fuel (n / 10) + 1

def nDigits (n : ℕ) : ℕ := digitCount n n

/-- `n / m` rounded half-to-even (`decimal`'s `ROUND_HALF_EVEN`). -/
def roundHalfEvenDiv (n m : ℕ) : ℕ :=
  if 2 * (n % m) > m ∨ (2 * (n % m) = m ∧ (n / m) % 2 = 1) then n / m + 1 else n / m

/-- Round coefficient `c` (value `c·10^e`) to `prec` significant digits,
half-even — the rounding a `decimal` context applies to every result. -/
def roundSig (prec : ℕ) (c : ℤ) (e : ℤ) : ℤ × ℤ :=
  if nDigits c.natAbs ≤ prec then (c, e)
  else
    (c.sign * (roundHalfEvenDiv c.natAbs (10 ^ (nDigits c.natAbs - prec)) : ℤ),
     e + ((nDigits c.natAbs - prec : ℕ) : ℤ))

/-- `Decimal` multiplication at context precision `prec`. -/
def mulD (prec : ℕ) (a b : ℤ × ℤ) : ℤ × ℤ := roundSig prec (a.1 * b.1) (a.2 + b.2)

/-- Exponent shift placing `sqrt c` (for `c ≥ 1` with exponent 0) on the
`prec`-significant-digit grid. -/
def sqrtShift (prec c : ℕ) : ℕ := prec - (nDigits c + 1) / 2

/-- The scaled radicand `c · 10^(2·shift)`. -/
def sqrtArg (prec c : ℕ) : ℕ := c * 10 ^ (2 * sqrtShift prec c)

/-- `Decimal(c).sqrt()` at context precision `prec`: the correctly
rounded (half-even; ties cannot occur since `4·sqrtArg` is even and
`(2r+1)^2` odd) square root on the `prec`-digit grid. -/
def sqrtD (prec c : ℕ) : ℤ × ℤ :=
  if 4 * sqrtArg prec c < (2 * Nat.sqrt (sqrtArg prec c) + 1) ^ 2 then
    ((Nat.sqrt (sqrtArg prec c) : ℤ), -((sqrtShift prec c : ℕ) : ℤ))
  else
    ((Nat.sqrt (sqrtArg prec c) : ℤ) + 1, -((sqrtShift prec c : ℕ) : ℤ))

/-- `Decimal` division at context precision `prec`: scale the dividend
so the quotient has `prec` significant digits, then round half-even. -/
def divD (prec : ℕ) (a b : ℤ × ℤ) : ℤ × ℤ :=
  let s : ℤ := if (a.1 < 0) = (b.1 < 0) then 1 else -1
  let ac := a.1.natAbs
  let bc := b.1.natAbs
  let shift0 : ℤ := (prec : ℤ) - ((nDigits ac : ℤ) - (nDigits bc : ℤ))
  let n0 := if 0 ≤ shift0 then ac * 10 ^ shift0.toNat else ac
  let m0 := if 0 ≤ shift0 then bc else bc * 10 ^ (-shift0).toNat
  let shift : ℤ := if 10 ^ prec ≤ n0 / m0 then shift0 - 1 else shift0
  let n1 := if 0 ≤ shift then ac * 10 ^ shift.toNat else ac
  let m1 := if 0 ≤ shift then bc else bc * 10 ^ (-shift).toNat
  (s * (roundHalfEvenDiv n1 m1 : ℤ), a.2 - b.2 - shift)

/-- `(426880 · sqrt(10005) · q) / t` at context precision `prec`
(left-associated, each operation individually rounded). -/
def chudFinal (prec : ℕ) (bs : BSTuple) : ℤ × ℤ :=
  divD prec (mulD prec (mulD prec ((426880 : ℤ), 0) (sqrtD prec 10005)) (bs.q, 0)) (bs.t, 0)

/-- `format(pi, "f")` on the value `v.1 · 10^v.2`, then the source's
split at `"."` and pad/truncate of the tail to exactly `digits`
fractional digits. -/
def chudnovskyRender (digits : ℕ) (v : ℤ × ℤ) : String :=
  let sign := if v.1 < 0 then "-" else ""
  let ds0 := toString v.1.natAbs
  let k := (-v.2).toNat
  let ds := if ds0.length ≤ k then String.mk (List.replicate (k + 1 - ds0.length) '0') ++ ds0 else ds0
  let head := if 0 ≤ v.2 then sign ++ ds0 ++ String.mk (List.replicate v.2.toNat '0')
    else sign ++ ds.take (ds.length - k)
  let tail := if 0 ≤ v.2 then "" else ds.drop (ds.length - k)
  head ++ "." ++
    (if tail.length < digits then tail ++ String.mk (List.replicate (digits - tail.length) '0')
     else tail.take digits)

/-- The tuple `chudnovsky_pi_decimal_string` evaluates: single recursive
call when `workers == 1 or terms < 2000`, else partition + ordered fold. -/
def chudBS (digits workers : ℕ) : BSTuple :=
  if workers = 1 ∨ chudTerms digits < 2000 then _bs 0 (chudTerms digits)
  else chudParallel (chudTerms digits) (min workers (chudTerms digits))

/-- `chudnovsky_pi_decimal_string(digits_after_point, workers)`
(`digits_after_point ≥ 0` is the claim's domain, hence `ℕ`). -/
def chudnovsky_pi_decimal_string (digits workers : ℕ) : Except String String :=
  if workers < 1 then .error "workers must be >= 1"
  else .ok (chudnovskyRender digits (chudFinal (digits + 20) (chudBS digits workers)))

/-! ## Byte-stream and serialization groundwork
(`digitloom/chunked.py`, `digitloom/crypto.py`)

Byte strings are `List ℕ` (each entry one byte).  Multi-byte integers
are big-endian as in the source (`struct.pack(">I", ·)`,
`int.to_bytes(8, "big")`, `int.from_bytes(·, "big")`).

Python dicts of JSON-serialisable values are association lists in
insertion order with Python's assignment semantics (overwrite in place,
else append).  `json.dumps(..., separators=(",", ":"))` /`json.loads`,
`base64.b64encode`/`b64decode` and `hexdigest`/`bytes.fromhex` are
serialisation black boxes whose byte-level formats no claim depends on;
they are modelled by canonical injective stand-ins with the same
round-trip behaviour (`decHeader ∘ encHeader = some`, etc.). -/

/-- A JSON-serialisable header value (the source stores strings and
ints). -/
inductive JVal where
  | s (v : String)
  | i (v : ℤ)
  deriving Repr, DecidableEq

/-- A Python dict in insertion order. -/
abbrev HMap := List (String × JVal)

/-- `d[k] = v` (overwrite in place if present, else append) — Python
dict assignment. -/
def hset (m : HMap) (k : String) (v : JVal) : HMap :=
  if (List.any m fun p => p.1 = k) then
    List.map (fun p => if p.1 = k then (k, v) else p) m
  else m ++ [(k, v)]

/-- `d.get(k)`. -/
def hget (m : HMap) (k : String) : Option JVal :=
  Option.map Prod.snd (List.find? (fun p => p.1 = k) m)

/-- `d.pop(k, None)`'s effect on the dict. -/
def hremove (m : HMap) (k : String) : HMap :=
  List.filter (fun p => decide (p.1 ≠ k)) m

/-- Python truthiness of a header value (`""` and `0` are falsy). -/
def jTruthy : JVal → Bool
  | .s v => v ≠ ""
  | .i v => v ≠ 0

/-- Python `value == someString` for a header value. -/
def jEqString : JVal → String → Bool
  | .s v, s => v = s
  | .i _, _ => false

/-- Big-endian 4-byte encoding (`struct.pack(">I", n)`). -/
def be4 (n : ℕ) : List ℕ :=
  [n / 2 ^ 24 % 256, n / 2 ^ 16 % 256, n / 2 ^ 8 % 256, n % 256]

/-- Big-endian 8-byte encoding (`index.to_bytes(8, "big")`). -/
def be8 (n : ℕ) : List ℕ :=
  [n / 2 ^ 56 % 256, n / 2 ^ 48 % 256, n / 2 ^ 40 % 256, n / 2 ^ 32 % 256,
   n / 2 ^ 24 % 256, n / 2 ^ 16 % 256, n / 2 ^ 8 % 256, n % 256]

/-- Big-endian interpretation of a byte string
(`int.from_bytes(l, "big")`). -/
def fromBe (l : List ℕ) : ℕ := l.foldl (fun acc b => acc * 256 + b) 0

/-- Canonical injective serialisation of a string (stand-in for the
UTF-8 of a JSON string): length, then one entry per character. -/
def encString (s : String) : List ℕ := s.length :: s.data.map Char.toNat

/-- Canonical injective serialisation of a `JVal`. -/
def encJVal : JVal → List ℕ
  | .s v => 0 :: encString v
  | .i v => 1 :: (if v < 0 then 1 else 0) :: [v.natAbs]

/-- Canonical injective serialisation of a dict — the model of
`json.dumps(h, ensure_ascii=False, separators=(",", ":")).encode()`. -/
def encHeader (m : HMap) : List ℕ :=
  m.length :: (m.map (fun p => encString p.1 ++ encJVal p.2)).flatten

/-- Parse one string; returns the remainder of the stream. -/
def decString : List ℕ → Option (String × List ℕ)
  | [] => none
  | n :: rest =>
    if n ≤ rest.length then
      some (⟨(rest.take n).map Char.ofNat⟩, rest.drop n)
    else none

/-- Parse one `JVal`. -/
def decJVal : List ℕ → Option (JVal × List ℕ)
  | 0 :: rest => (decString rest).map (fun p => (.s p.1, p.2))
  | 1 :: sign :: mag :: rest =>
    some (.i (if sign = 1 then -(mag : ℤ) else (mag : ℤ)), rest)
  | _ => none

/-- Parse `count` key-value pairs. -/
def decEntries : ℕ → List ℕ → Option (HMap × List ℕ)
  | 0, rest => some ([], rest)
  | count + 1, rest => do
    let (k, rest1) ← decString rest
    let (v, rest2) ← decJVal rest1
    let (tl, rest3) ← decEntries count rest2
    some ((k, v) :: tl, rest3)

/-- The model of `json.loads` on a full header byte string. -/
def decHeader (l : List ℕ) : Option HMap :=
  match l with
  | [] => none
  | count :: rest =>
    match decEntries count rest with
    | some (m, []) => some m
    | _ => none

/-- Hex digit alphabet accessor. -/
def hexChar (n : ℕ) : Char := "0123456789abcdef".toList.getD n 'x'

/-- `hashlib.sha256(b).hexdigest()`'s text form of a digest. -/
def hexOfBytes (l : List ℕ) : String :=
  ⟨(l.map (fun b => [hexChar (b / 16 % 16), hexChar (b % 16)])).flatten⟩

/-- `bytes.fromhex(s)` on strings produced by `hexOfBytes`. -/
def bytesOfHex (s : String) : List ℕ :=
  ((s.data.map (fun c => "0123456789abcdef".toList.findIdx (· = c))).toChunks 2).map
    (fun p => p.headD 0 * 16 + p.getLastD 0)

/-- Stand-in for `base64.b64encode(salt).decode("ascii")` (one character
per byte; injective on byte values `< 256`). -/
def b64OfBytes (l : List ℕ) : String := ⟨l.map Char.ofNat⟩

/-- Stand-in for `base64.b64decode`, inverse of `b64OfBytes`. -/
def bytesOfB64 (s : String) : List ℕ := s.data.map Char.toNat

/-- `s.lower()` (ASCII; all selector strings in play are ASCII). -/
def strLower (s : String) : String := ⟨s.data.map Char.toLower⟩

/-- `s.strip()`. -/
def strTrim (s : String) : String :=
  ⟨((s.data.dropWhile fun c => c.isWhitespace).reverse.dropWhile fun c =>
      c.isWhitespace).reverse⟩

/-- `(x or "none").lower().strip()` — the normalization the container
codec applies to its `compression`/`encryption` selectors. -/
def pyNorm (s : String) : String :=
  strTrim (strLower (if s = "" then "none" else s))

/-! ## External cryptographic primitives

`hashlib.sha256`, `gzip`, `Scrypt` and the two AEAD ciphers are external
black boxes (spec §1/§6: "general-purpose compression/cipher primitives
(used as opaque black boxes ...)").  They enter the model as a bundle of
functions together with exactly the contracts the spec assumes of them:
gzip round-trips, AEAD decryption inverts encryption under the same key
and authenticates (wrong key ⇒ failure, the standard 128-bit-tag
idealization), and the memory-hard KDF separates distinct passwords. -/

structure CryptoPrims where
  hash256 : List ℕ → List ℕ
  gzipC : List ℕ → List ℕ
  gzipD : List ℕ → List ℕ
  kdf : String → List ℕ → List ℕ
  aesgcmE : List ℕ → List ℕ → List ℕ → List ℕ → List ℕ
  aesgcmD : List ℕ → List ℕ → List ℕ → List ℕ → Option (List ℕ)
  chachaE : List ℕ → List ℕ → List ℕ → List ℕ → List ℕ
  chachaD : List ℕ → List ℕ → List ℕ → List ℕ → Option (List ℕ)
  hash256_len : ∀ b, (hash256 b).length = 32
  gzip_rt : ∀ b, gzipD (gzipC b) = b
  aes_rt : ∀ k n p a, aesgcmD k n (aesgcmE k n p a) a = some p
  chacha_rt : ∀ k n p a, chachaD k n (chachaE k n p a) a = some p
  aes_auth : ∀ k kx n p a, kx ≠ k → aesgcmD kx n (aesgcmE k n p a) a = none
  chacha_auth : ∀ k kx n p a, kx ≠ k → chachaD kx n (chachaE k n p a) a = none
  kdf_inj : ∀ pw pwx s, pw ≠ pwx → kdf pw s ≠ kdf pwx s

/-- Toy key-prefix cipher used to instantiate `CryptoPrims` in
witnesses. -/
def toyEnc (key _nonce pt _aad : List ℕ) : List ℕ := key.length :: (key ++ pt)

/-- Inverse of `toyEnc`, checking the stored key. -/
def toyDec (key _nonce : List ℕ) (ct : List ℕ) (_aad : List ℕ) : Option (List ℕ) :=
  match ct with
  | [] => none
  | klen :: rest =>
    if klen = key.length ∧ rest.take key.length = key then some (rest.drop key.length)
    else none

/-- Concrete `CryptoPrims` instance (length-tag hash, identity gzip,
string-encoding KDF, `toyEnc`/`toyDec` AEAD) for witnesses. -/
def toyPrims : CryptoPrims where
  hash256 := fun b => List.replicate 31 0 ++ [b.length % 256]
  gzipC := id
  gzipD := id
  kdf := fun pw salt => (pw.length :: pw.data.map Char.toNat) ++ salt
  aesgcmE := toyEnc
  aesgcmD := toyDec
  chachaE := toyEnc
  chachaD := toyDec
  hash256_len := fun b => by simp
  gzip_rt := fun b => rfl
  aes_rt := fun k n p a => by
    unfold toyDec toyEnc
    show (if k.length = k.length ∧ List.take k.length (k ++ p) = k
      then some (List.drop k.length (k ++ p)) else none) = some p
    rw [if_pos ⟨rfl, List.take_left' rfl⟩, List.drop_left' rfl]
  chacha_rt := fun k n p a => by
    unfold toyDec toyEnc
    show (if k.length = k.length ∧ List.take k.length (k ++ p) = k
      then some (List.drop k.length (k ++ p)) else none) = some p
    rw [if_pos ⟨rfl, List.take_left' rfl⟩, List.drop_left' rfl]
  aes_auth := fun k kx n p a hne => by
    unfold toyDec toyEnc
    show (if k.length = kx.length ∧ List.take kx.length (k ++ p) = kx
      then some (List.drop kx.length (k ++ p)) else none) = none
    rw [if_neg ?_]
    rintro ⟨hlen, htake⟩
    rw [show kx.length = k.length from hlen.symm, List.take_left' rfl] at htake
    exact hne htake.symm
  chacha_auth := fun k kx n p a hne => by
    unfold toyDec toyEnc
    show (if k.length = kx.length ∧ List.take kx.length (k ++ p) = kx
      then some (List.drop kx.length (k ++ p)) else none) = none
    rw [if_neg ?_]
    rintro ⟨hlen, htake⟩
    rw [show kx.length = k.length from hlen.symm, List.take_left' rfl] at htake
    exact hne htake.symm
  kdf_inj := fun pw pwx s hne heq => by
    simp only [List.cons_append, List.cons.injEq, List.append_cancel_right_eq] at heq
    apply hne
    have hdata := congrArg (List.map Char.ofNat) heq.2
    rw [List.map_map, List.map_map] at hdata
    have h1 : pw.data.map (Char.ofNat ∘ Char.toNat) = pw.data :=
      (List.map_congr_left fun c _ => Char.ofNat_toNat c).trans (List.map_id _)
    have h2 : pwx.data.map (Char.ofNat ∘ Char.toNat) = pwx.data :=
      (List.map_congr_left fun c _ => Char.ofNat_toNat c).trans (List.map_id _)
    rw [h1, h2] at hdata
    cases pw
    cases pwx
    exact congrArg String.mk hdata

/-! ## Encryption envelope (`digitloom/crypto.py`)

`os.urandom` draws are explicit arguments (`salt`, `nonce`). -/

def magicEnvelope : List ℕ := "DLOOM1".data.map Char.toNat

/-- `algorithm.lower().strip()`. -/
def strNormAlg (algorithm : String) : String := strTrim (strLower algorithm)

/-- `encrypt_blob_v1(plaintext, password, algorithm, aad)`. -/
def encrypt_blob_v1 (P : CryptoPrims) (salt nonce : List ℕ) (plaintext : List ℕ)
    (password : String) (algorithm : String) (aad : HMap) : Except String (List ℕ) :=
  if password = "" then .error "password is required"
  else if ¬(strNormAlg algorithm = "aes-256-gcm" ∨
      strNormAlg algorithm = "chacha20-poly1305") then .error "unsupported algorithm"
  else
    let meta := hset (hset aad "kdf" (.s "scrypt")) "alg" (.s (strNormAlg algorithm))
    let metaBytes := encHeader meta
    if 2 ^ 32 - 1 < metaBytes.length then .error "aad too large"
    else
      let key := P.kdf password salt
      let algId : ℕ := if strNormAlg algorithm = "aes-256-gcm" then 1 else 2
      let ct := if strNormAlg algorithm = "aes-256-gcm"
        then P.aesgcmE key nonce plaintext metaBytes
        else P.chachaE key nonce plaintext metaBytes
      .ok (magicEnvelope ++ [algId] ++ salt ++ nonce ++ be4 metaBytes.length ++ metaBytes ++ ct)

/-- `decrypt_blob_v1(blob, password)`. -/
def decrypt_blob_v1 (P : CryptoPrims) (blob : List ℕ) (password : String) :
    Except String (List ℕ × HMap) :=
  if password = "" then .error "password is required"
  else if blob.length < 6 + 1 + 16 + 12 + 4 then .error "invalid blob"
  else if blob.take 6 ≠ magicEnvelope then .error "invalid magic"
  else
    let algId := (blob.drop 6).headD 0
    let salt := (blob.drop 7).take 16
    let nonce := (blob.drop 23).take 12
    let metaLen := fromBe ((blob.drop 35).take 4)
    let metaBytes := (blob.drop 39).take metaLen
    let ct := blob.drop (39 + metaLen)
    let key := P.kdf password salt
    if algId = 1 then
      match P.aesgcmD key nonce ct metaBytes with
      | some pt =>
        match decHeader metaBytes with
        | some meta => .ok (pt, meta)
        | none => .error "invalid metadata"
      | none => .error "AuthenticationError"
    else if algId = 2 then
      match P.chachaD key nonce ct metaBytes with
      | some pt =>
        match decHeader metaBytes with
        | some meta => .ok (pt, meta)
        | none => .error "invalid metadata"
      | none => .error "AuthenticationError"
    else .error "unsupported algorithm id"

/-! ## Chunk container codec (`digitloom/chunked.py`) -/

/-- The argument validation `ChunkedWriter.__init__` performs (in source
order: normalized compression membership, then — only when the
normalized encryption is not `"none"` — non-empty password, then
encryption membership).  Returns the normalized `(compression,
encryption)` pair on success. -/
def checkWriterArgs (compression encryption password : String) :
    Except String (String × String) :=
  let c := pyNorm compression
  let e := pyNorm encryption
  if ¬(c = "none" ∨ c = "gzip" ∨ c = "gz") then .error "unsupported compression"
  else if e ≠ "none" then
    if password = "" then .error "password is required for encryption"
    else if ¬(e = "aes-256-gcm" ∨ e = "chacha20-poly1305") then
      .error "unsupported encryption"
    else .ok (c, e)
  else .ok (c, e)

def magicChunked : List ℕ := "DLOOMCH1".data.map Char.toNat

/-- `_encrypt_chunk`: dispatch on the (normalized) encryption name. -/
def encryptChunk (P : CryptoPrims) (e : String) (key nonce payload aad : List ℕ) : List ℕ :=
  if e = "aes-256-gcm" then P.aesgcmE key nonce payload aad
  else P.chachaE key nonce payload aad

/-- `_decrypt_chunk`. -/
def decryptChunk (P : CryptoPrims) (e : String) (key nonce payload aad : List ℕ) :
    Option (List ℕ) :=
  if e = "aes-256-gcm" then P.aesgcmD key nonce payload aad
  else P.chachaD key nonce payload aad

/-- The header dict before the integrity hash is added: caller metadata,
then `version`, `hash`, `compression`, `encryption`, and — when
encrypting — `kdf`, base64 `salt`, `nonce_len`. -/
def writerBase (metadata : HMap) (c e : String) (salt : List ℕ) : HMap :=
  let b0 := hset (hset (hset (hset metadata "version" (.i 1)) "hash" (.s "sha256"))
    "compression" (.s c)) "encryption" (.s e)
  if e ≠ "none" then
    hset (hset (hset b0 "kdf" (.s "scrypt")) "salt" (.s (b64OfBytes salt)))
      "nonce_len" (.i 12)
  else b0

/-- `_header_hash_hex(base_header)` at writer-open time. -/
def writerHashHex (P : CryptoPrims) (metadata : HMap) (c e : String) (salt : List ℕ) : String :=
  hexOfBytes (P.hash256 (encHeader (hremove (writerBase metadata c e salt) "header_hash")))

/-- The complete header the writer serialises. -/
def writerHeader (P : CryptoPrims) (metadata : HMap) (c e : String) (salt : List ℕ) : HMap :=
  hset (writerBase metadata c e salt) "header_hash" (.s (writerHashHex P metadata c e salt))

/-- The bytes `ChunkedWriter.write` emits for one non-empty chunk
`raw` at position `index`. -/
def writeChunk (P : CryptoPrims) (c e : String) (key hhBytes : List ℕ) (index : ℕ)
    (nonce raw : List ℕ) : List ℕ :=
  let payload0 := if c = "gzip" ∨ c = "gz" then P.gzipC raw else raw
  let payload := if e ≠ "none"
    then encryptChunk P e key nonce payload0 (hhBytes ++ be8 index)
    else payload0
  be4 raw.length ++ be4 payload.length ++ P.hash256 raw ++
    (if e ≠ "none" then nonce else []) ++ payload

/-- Consecutive `write` calls: empty chunks are skipped without
consuming an index or a nonce. -/
def writeChunks (P : CryptoPrims) (c e : String) (key hhBytes : List ℕ) :
    ℕ → List (List ℕ) → List (List ℕ) → List ℕ
  | _, _, [] => []
  | index, nonces, raw :: rest =>
    if raw = [] then writeChunks P c e key hhBytes index nonces rest
    else writeChunk P c e key hhBytes index (nonces.headD []) raw ++
      writeChunks P c e key hhBytes (index + 1) nonces.tail rest

/-- The byte stream a `ChunkedWriter` session produces: validation,
magic + length-prefixed header, then the chunk frames (nonces are the
explicit `os.urandom` draws). -/
def writerStream (P : CryptoPrims) (metadata : HMap)
    (compression encryption password : String) (salt : List ℕ)
    (nonces : List (List ℕ)) (chunks : List (List ℕ)) : Except String (List ℕ) :=
  match checkWriterArgs compression encryption password with
  | .error msg => .error msg
  | .ok (c, e) =>
    let hb := encHeader (writerHeader P metadata c e salt)
    .ok (magicChunked ++ be4 hb.length ++ hb ++
      writeChunks P c e (P.kdf password salt)
        (bytesOfHex (writerHashHex P metadata c e salt)) 0 nonces chunks)

/-- The state `ChunkedReader.__init__` establishes. -/
structure ReaderCfg where
  header : HMap
  compression : String
  encryption : String
  nonceLen : ℕ
  key : Option (List ℕ)
  hhBytes : List ℕ

/-- `(header.get(k) or default)` for string-valued fields. -/
def pyStrOr (o : Option JVal) (dflt : String) : String :=
  match o with
  | some (.s v) => if v = "" then dflt else v
  | some (.i n) => if n = 0 then dflt else "<non-string>"
  | none => dflt

/-- `int(header.get("nonce_len") or 0)` for the integer values the
writer stores. -/
def pyIntOr (o : Option JVal) : ℕ :=
  match o with
  | some (.i n) => n.toNat
  | some (.s _) => 0
  | none => 0

/-- `ChunkedReader.__init__` on a byte stream: validates the magic,
reads the length-prefixed header, recomputes the integrity hash
(comparing it only when a truthy `header_hash` is stored), normalizes
and validates compression, and prepares decryption state.  Returns the
reader configuration and the remaining (chunk) byte stream. -/
def readerInit (P : CryptoPrims) (stream : List ℕ) (password : String) :
    Except String (ReaderCfg × List ℕ) :=
  if stream.take 8 ≠ magicChunked then .error "invalid magic"
  else if (stream.drop 8).length < 4 then .error "invalid header"
  else
    let hlen := fromBe ((stream.drop 8).take 4)
    let hbytes := (stream.drop 12).take hlen
    if hbytes.length ≠ hlen then .error "invalid header"
    else
      match decHeader hbytes with
      | none => .error "invalid header json"
      | some hdr =>
        let computed := hexOfBytes (P.hash256 (encHeader (hremove hdr "header_hash")))
        if (match hget hdr "header_hash" with
            | some j => jTruthy j && !(jEqString j computed)
            | none => false) then .error "header hash mismatch"
        else
          let c := strTrim (strLower (pyStrOr (hget hdr "compression") "none"))
          let e := strTrim (strLower (pyStrOr (hget hdr "encryption") "none"))
          if ¬(c = "none" ∨ c = "gzip" ∨ c = "gz") then .error "unsupported compression"
          else
            let nlen := pyIntOr (hget hdr "nonce_len")
            if e ≠ "none" then
              if password = "" then .error "password is required for decryption"
              else
                match hget hdr "salt" with
                | some (.s saltB64) =>
                  if saltB64 = "" then .error "missing salt"
                  else .ok (⟨hdr, c, e, nlen,
                    some (P.kdf password (bytesOfB64 saltB64)), bytesOfHex computed⟩,
                    (stream.drop 12).drop hlen)
                | _ => .error "missing salt"
            else .ok (⟨hdr, c, e, nlen, none, bytesOfHex computed⟩,
              (stream.drop 12).drop hlen)

/-- One `ChunkedReader.__next__` call on the remaining byte stream:
`ok none` is `StopIteration` (clean end exactly on a chunk boundary). -/
def readChunk (P : CryptoPrims) (cfg : ReaderCfg) (index : ℕ) (stream : List ℕ) :
    Except String (Option (List ℕ × List ℕ)) :=
  if stream = [] then .ok none
  else if stream.length < 8 then .error "invalid chunk header"
  else
    let rawLen := fromBe (stream.take 4)
    let payloadLen := fromBe ((stream.drop 4).take 4)
    let r1 := stream.drop 8
    if (r1.take 32).length ≠ 32 then .error "invalid chunk hash"
    else
      let digest := r1.take 32
      let r2 := r1.drop 32
      let nonce := if cfg.encryption ≠ "none" then r2.take cfg.nonceLen else []
      if cfg.encryption ≠ "none" ∧ nonce.length ≠ cfg.nonceLen then .error "invalid nonce"
      else
        let r3 := if cfg.encryption ≠ "none" then r2.drop cfg.nonceLen else r2
        let payload := r3.take payloadLen
        if payload.length ≠ payloadLen then .error "invalid chunk payload"
        else
          let dataE : Except String (List ℕ) :=
            if cfg.encryption ≠ "none" then
              match decryptChunk P cfg.encryption (cfg.key.getD []) nonce payload
                  (cfg.hhBytes ++ be8 index) with
              | some d => .ok d
              | none => .error "AuthenticationError"
            else .ok payload
          match dataE with
          | .error msg => .error msg
          | .ok data0 =>
            let data := if cfg.compression = "gzip" ∨ cfg.compression = "gz"
              then P.gzipD data0 else data0
            if data.length ≠ rawLen then .error "invalid chunk length"
            else if P.hash256 data ≠ digest then .error "chunk hash mismatch"
            else .ok (some (data, r3.drop payloadLen))

/-- Iterate `__next__` to exhaustion (with fuel). -/
def readChunks (P : CryptoPrims) (cfg : ReaderCfg) :
    ℕ → ℕ → List ℕ → Except String (List (List ℕ))
  | 0, _, _ => .error "out of fuel"
  | fuel + 1, index, stream =>
    match readChunk P cfg index stream with
    | .error msg => .error msg
    | .ok none => .ok []
    | .ok (some (data, rest)) =>
      match readChunks P cfg fuel (index + 1) rest with
      | .error msg => .error msg
      | .ok tl => .ok (data :: tl)

end Digitloom

/-! ### Theorems -/

namespace Digitloom

theorem spigotInv_step {s : SpigotState} (h : SpigotInv s) :
    SpigotInv (spigotStep s).2 := by
  obtain ⟨hq, ht, hl, hk⟩ := h
  unfold spigotStep SpigotInv
  by_cases hc : 4 * s.q + s.r - s.t < s.n * s.t
  · simp only [if_pos hc]
    exact ⟨by linarith, ht, hl, hk⟩
  · simp only [if_neg hc]
    refine ⟨?_, ?_, by linarith, by linarith⟩
    · nlinarith
    · nlinarith

theorem spigotInv_iter (n : ℕ) : SpigotInv (spigotIter n spigotInit) := by
  suffices h : ∀ (m : ℕ) (s : SpigotState), SpigotInv s → SpigotInv (spigotIter m s) from
    h n spigotInit (by decide)
  intro m
  induction m with
  | zero => intro s hs; exact hs
  | succ m ih => intro s hs; exact ih _ (spigotInv_step hs)

theorem compute_precision_eq_ceil_logb (d : ℤ) (b : ℕ) (g : ℤ) (hb : 2 ≤ b) :
    compute_precision d b g = ⌈(d : ℝ) * Real.logb 10 b⌉ + g := by
  unfold compute_precision
  congr 1
  rcases le_or_lt 0 d with hd | hd
  · rw [if_pos hd]
    have hcast : (d : ℝ) = (d.toNat : ℝ) := by exact_mod_cast (Int.toNat_of_nonneg hd).symm
    rw [hcast, ← Real.logb_pow,
      show ((b : ℝ) ^ d.toNat) = ((b ^ d.toNat : ℕ) : ℝ) by push_cast; ring,
      show (10 : ℝ) = ((10 : ℕ) : ℝ) by norm_num,
      Real.ceil_logb_natCast (Nat.cast_nonneg _), Int.clog_natCast]
  · rw [if_neg (not_le.mpr hd)]
    have hcast : (d : ℝ) = -(((-d).toNat : ℝ)) := by
      have h0 : ((-d).toNat : ℤ) = -d := Int.toNat_of_nonneg (by omega)
      have h1 := congrArg (fun z : ℤ => (z : ℝ)) h0
      push_cast at h1
      linarith
    rw [hcast, neg_mul, Int.ceil_neg, ← Real.logb_pow,
      show ((b : ℝ) ^ (-d).toNat) = ((b ^ (-d).toNat : ℕ) : ℝ) by push_cast; ring,
      show (10 : ℝ) = ((10 : ℕ) : ℝ) by norm_num,
      Real.floor_logb_natCast (Nat.cast_nonneg _), Int.log_natCast]

/-- C8 counterexample: `compute_precision(-5, 10)` (default guard 30) does
not fail — the source performs no validation of `digit_count` — and
returns `⌈-5·log10(10)⌉ + 30 = 25`, refuting the claim that `plan` fails
for every negative `digit_count`. -/
theorem compute_precision_neg_digits_no_failure :
    compute_precision (-5) 10 = 25 := by
  norm_num [compute_precision, Nat.log_pow]

/-- C8 (amended): for every `digit_count ≥ 0`, base in `2..36` and guard,
`compute_precision` returns exactly `⌈digit_count · log10 base⌉ + guard`,
with guard defaulting to 30; for `digit_count < 0` it does not fail but
returns the same formula applied to the negative count. -/
theorem compute_precision_spec (d : ℤ) (b : ℕ) (g : ℤ)
    (hb : 2 ≤ b) (hb' : b ≤ 36) :
    compute_precision d b g = ⌈(d : ℝ) * Real.logb 10 b⌉ + g ∧
    compute_precision d b = ⌈(d : ℝ) * Real.logb 10 b⌉ + 30 :=
  ⟨compute_precision_eq_ceil_logb d b g hb,
   compute_precision_eq_ceil_logb d b 30 hb⟩

/-- Witness for `compute_precision_spec` at `d = 3`, `b = 16`, `g = 60`:
`⌈3·log10 16⌉ = ⌈3.612...⌉ = 4`, so the planner returns 64 (and 34 with
the default guard). -/
theorem compute_precision_spec_witness :
    compute_precision 3 16 60 = 64 ∧ compute_precision 3 16 = 34 ∧
    (⌈((3 : ℤ) : ℝ) * Real.logb 10 ((16 : ℕ) : ℝ)⌉ + 60 = 64 ∧
     ⌈((3 : ℤ) : ℝ) * Real.logb 10 ((16 : ℕ) : ℝ)⌉ + 30 = 34) := by
  have h := compute_precision_spec 3 16 60 (by norm_num) (by norm_num)
  have hclog : Nat.clog 10 4096 = 4 := by
    have h1 : Nat.clog 10 4096 ≤ 4 := (Nat.le_pow_iff_clog_le (by norm_num)).1 (by norm_num)
    have h2 : 3 < Nat.clog 10 4096 := by
      rw [← Nat.pow_lt_iff_lt_clog (by norm_num)]
      norm_num
    omega
  have ht : ((3 : ℤ).toNat) = 3 := rfl
  have h1 : compute_precision 3 16 60 = 64 := by
    norm_num [compute_precision, ht, hclog]
  have h2 : compute_precision 3 16 = 34 := by
    norm_num [compute_precision, ht, hclog]
  exact ⟨h1, h2, by rw [← h.1]; exact h1, by rw [← h.2]; exact h2⟩

set_option maxRecDepth 400000 in
/-- C6: `pi_hex_digits(0, 16)` is `"243F6A8885A308D3"` — equivalently,
for `n` in `0..15` the `n`-th hex digit of π after the point is the
`n`-th character of that string — and `pi_hex_digit(n)` fails with
`ValueError` (`InvalidArgument`) for every `n < 0`. -/
theorem bbp_pi_hex_digits_first16 :
    pi_hex_digits 0 16 = .ok "243F6A8885A308D3" ∧
    ∀ n : ℤ, n < 0 → pi_hex_digit n = .error "n must be >= 0" := by
  constructor
  · decide
  · intro n hn
    simp [pi_hex_digit, if_pos hn]

/-- Witness for `bbp_pi_hex_digits_first16` at the concrete negative
input `n = -1`. -/
theorem bbp_pi_hex_digits_first16_witness :
    pi_hex_digits 0 16 = .ok "243F6A8885A308D3" ∧
    pi_hex_digit (-1) = .error "n must be >= 0" :=
  ⟨bbp_pi_hex_digits_first16.1, bbp_pi_hex_digits_first16.2 (-1) (by decide)⟩

set_option maxRecDepth 400000 in
/-- C9: `verify_fractional_digits` (a) returns `(true, "verification
skipped")` whenever `samples ≤ 0`, for every candidate (so the candidate
is never consulted); (b) passes whenever the candidate prefix is empty
(assuming only that `_mp_prefix` returns no digits when asked for 0);
(c) on the general path compares over exactly
`min(sample_count, len(candidate), len(reference))` digits, where the
reference length is the requested `min(sample_count, len(candidate))`;
(d) a mismatch yields `passed = false` tagged `"pi spigot"` (π, base 10)
or `"pi bbp"` (π, base 16) rather than an exception. -/
theorem verify_skip_overlap_and_tags
    (mpPrefix : String → String → ℤ → ℤ → String)
    (name expr : String) (base samples : ℤ) (cand : String) :
    (samples ≤ 0 →
      verify_fractional_digits mpPrefix name expr base samples cand =
        (true, "verification skipped")) ∧
    ((∀ n e b, (mpPrefix n e b 0).length = 0) → cand = "" →
      (verify_fractional_digits mpPrefix name expr base samples cand).1 = true) ∧
    (¬(name = "Pi (π)" ∧ base = 10) → ¬(name = "Pi (π)" ∧ base = 16) →
      0 < samples →
      (mpPrefix name expr base (min samples (cand.length : ℤ))).length =
        (min samples (cand.length : ℤ)).toNat →
      verify_fractional_digits mpPrefix name expr base samples cand =
        (mpPrefix name expr base (min samples (cand.length : ℤ)) ==
          cand.take (min samples (cand.length : ℤ)).toNat, "mp stability") ∧
      (min samples (cand.length : ℤ)).toNat =
        min (min samples.toNat cand.length)
          (mpPrefix name expr base (min samples (cand.length : ℤ))).length) ∧
    verify_fractional_digits mpPrefix "Pi (π)" "" 10 5 "99999" =
      (false, "pi spigot") ∧
    verify_fractional_digits mpPrefix "Pi (π)" "" 16 5 "zzzzz" =
      (false, "pi bbp") := by
  refine ⟨?_, ?_, ?_, ?_, ?_⟩
  · intro h
    unfold verify_fractional_digits
    rw [if_pos h]
  · intro hmp hcand
    subst hcand
    unfold verify_fractional_digits
    by_cases h0 : samples ≤ 0
    · rw [if_pos h0]
    rw [if_neg h0]
    have hmin : min samples (("" : String).length : ℤ) = 0 := by
      have : (("" : String).length : ℤ) = 0 := by decide
      rw [this]
      exact min_eq_right (by omega)
    split_ifs with h1 h2
    · rw [hmin]
      decide
    · rw [hmin]
      decide
    · dsimp only
      rw [hmin]
      have hz := hmp name expr base
      have : mpPrefix name expr base 0 = "" := by
        cases hval : mpPrefix name expr base 0 with
        | mk data =>
          rw [hval] at hz
          simp [String.length] at hz
          simp [hz]
      rw [this]
      decide
  · intro h10 h16 hs hlen
    unfold verify_fractional_digits
    rw [if_neg (by omega), if_neg h10, if_neg h16]
    dsimp only
    rw [hlen]
    refine ⟨rfl, ?_⟩
    have h1 : (min samples (cand.length : ℤ)).toNat = min samples.toNat cand.length := by
      omega
    omega
  · unfold verify_fractional_digits
    rw [if_neg (by norm_num), if_pos ⟨rfl, rfl⟩]
    decide
  · unfold verify_fractional_digits
    rw [if_neg (by norm_num), if_neg (by simp), if_pos ⟨rfl, rfl⟩]
    decide

/-- Witness for `verify_skip_overlap_and_tags`, with `_mp_prefix`
instantiated by an oracle returning the requested number of `'7'`
characters: skip at `samples = 0`, empty-candidate pass, and the
general-path comparison at `samples = 3` against candidate `"77"`. -/
theorem verify_skip_overlap_and_tags_witness :
    verify_fractional_digits (fun _ _ _ s => ⟨List.replicate s.toNat '7'⟩)
        "Euler's e" "x" 10 0 "123" = (true, "verification skipped") ∧
    (verify_fractional_digits (fun _ _ _ s => ⟨List.replicate s.toNat '7'⟩)
        "Euler's e" "x" 10 3 "").1 = true ∧
    verify_fractional_digits (fun _ _ _ s => ⟨List.replicate s.toNat '7'⟩)
        "Euler's e" "x" 10 3 "77" =
      ((fun (_ _ : String) (_ s : ℤ) => (⟨List.replicate s.toNat '7'⟩ : String))
          "Euler's e" "x" 10 (min 3 (("77" : String).length : ℤ)) ==
        ("77" : String).take (min 3 (("77" : String).length : ℤ)).toNat,
        "mp stability") := by
  refine ⟨?_, ?_, ?_⟩
  · exact (verify_skip_overlap_and_tags _ "Euler's e" "x" 10 0 "123").1 (by omega)
  · exact (verify_skip_overlap_and_tags _ "Euler's e" "x" 10 3 "").2.1
      (fun n e b => by decide) rfl
  · exact ((verify_skip_overlap_and_tags _ "Euler's e" "x" 10 3 "77").2.2.1
      (by decide) (by decide) (by omega) (by decide)).1

/-- C5: the spigot state machine started at `(1,0,1,1,3,3)` and stepped by
the two update rules of `pi_digits_spigot` emits as its first 51 digits
exactly `3,1,4,1,5,9,2,6,5,3,5,8,9,7,9,3,2,3,8,4,6,2,6,4,3,3,8,3,2,7,9,5,
0,2,8,8,4,1,9,7,1,6,9,3,9,9,3,7,5,1,0`, and `format_spigot_pi 51` is the
string `"3.14159265358979323846264338327950288419716939937510"`. -/
theorem spigot_first_51_digits :
    (spigotDigits 316 spigotInit).take 51 =
      [3,1,4,1,5,9,2,6,5,3,5,8,9,7,9,3,2,3,8,4,6,2,6,4,3,3,8,3,2,7,9,5,
       0,2,8,8,4,1,9,7,1,6,9,3,9,9,3,7,5,1,0] ∧
    format_spigot_pi 51 =
      .ok "3.14159265358979323846264338327950288419716939937510" := by
  constructor
  · decide
  · rfl

/-- C10 counterexample: the state reached after two loop iterations from
the initial spigot state is `(10, -30, 3, 2, 0, 5)`, whose `r` component
is negative — refuting the claimed invariant `r ≥ 0` on reachable
states. -/
theorem spigot_r_negative_after_two_steps :
    spigotIter 2 spigotInit = ⟨10, -30, 3, 2, 0, 5⟩ ∧
    (spigotIter 2 spigotInit).r < 0 := by
  constructor <;> decide

/-- C10 (amended): every spigot state reachable from `(1,0,1,1,3,3)`
satisfies `q ≥ 1`, `t ≥ 1`, `l ≥ 3` and `k ≥ 1` (but not `r ≥ 0`, which
fails — see `spigot_r_negative_after_two_steps`); in particular the
divisors `t` and `t·l` of the two update rules are nonzero, so every
step of the generator is well-defined. -/
theorem charToNat_ofNat {n : ℕ} (h : n < 55296) : (Char.ofNat n).toNat = n := by
  simp [Char.ofNat, Nat.isValidChar, h, Char.toNat, Char.ofNatAux, UInt32.toNat, UInt32.ofNat']

theorem bytesOfB64_b64OfBytes (l : List ℕ) (h : ∀ x ∈ l, x < 256) :
    bytesOfB64 (b64OfBytes l) = l := by
  unfold bytesOfB64 b64OfBytes
  rw [List.map_map]
  refine List.map_congr_left ?_ |>.trans (List.map_id l)
  intro x hx
  exact charToNat_ofNat (by have := h x hx; omega)

theorem fromBe_be4 (n : ℕ) (h : n < 2 ^ 32) : fromBe (be4 n) = n := by
  unfold fromBe be4
  simp only [List.foldl_cons, List.foldl_nil]
  omega

theorem decString_encString (s : String) (rest : List ℕ) :
    decString (encString s ++ rest) = some (s, rest) := by
  unfold decString encString
  simp only [List.cons_append]
  rw [if_pos (by simp)]
  rw [List.take_left' (by simp), List.drop_left' (by simp), List.map_map]
  congr 1
  have hmap : s.data.map (Char.ofNat ∘ Char.toNat) = s.data := by
    refine (List.map_congr_left ?_).trans (List.map_id s.data)
    intro c _
    exact Char.ofNat_toNat c
  rw [hmap]

theorem decJVal_encJVal (v : JVal) (rest : List ℕ) :
    decJVal (encJVal v ++ rest) = some (v, rest) := by
  cases v with
  | s str =>
    show decJVal (0 :: (encString str ++ rest)) = _
    simp only [decJVal]
    rw [decString_encString]
    rfl
  | i z =>
    show decJVal (1 :: (if z < 0 then 1 else 0) :: z.natAbs :: rest) = _
    by_cases hz : z < 0
    · rw [if_pos hz]
      show some (JVal.i (if (1 : ℕ) = 1 then -(z.natAbs : ℤ) else (z.natAbs : ℤ)), rest)
        = some (JVal.i z, rest)
      rw [if_pos rfl, show -(z.natAbs : ℤ) = z by omega]
    · rw [if_neg hz]
      show some (JVal.i (if (0 : ℕ) = 1 then -(z.natAbs : ℤ) else (z.natAbs : ℤ)), rest)
        = some (JVal.i z, rest)
      rw [if_neg (by omega), show (z.natAbs : ℤ) = z by omega]

theorem decEntries_encEntries (m : HMap) (rest : List ℕ) :
    decEntries m.length ((m.map (fun p => encString p.1 ++ encJVal p.2)).flatten ++ rest)
      = some (m, rest) := by
  induction m generalizing rest with
  | nil => rfl
  | cons p tl ih =>
    simp only [List.length_cons, List.map_cons, List.flatten_cons, List.append_assoc]
    unfold decEntries
    rw [decString_encString]
    simp only [Option.bind_eq_bind, Option.some_bind]
    rw [decJVal_encJVal]
    simp only [Option.some_bind]
    rw [ih rest]
    rfl

theorem decHeader_encHeader (m : HMap) : decHeader (encHeader m) = some m := by
  show decHeader (m.length :: (m.map (fun p => encString p.1 ++ encJVal p.2)).flatten) = _
  simp only [decHeader]
  have h := decEntries_encEntries m []
  rw [List.append_nil] at h
  rw [h]

theorem find?_key_cons (q : String × JVal) (tl : List (String × JVal)) (k' : String) :
    List.find? (fun p => decide (p.1 = k')) (q :: tl)
      = if q.1 = k' then some q else List.find? (fun p => decide (p.1 = k')) tl := by
  by_cases h : q.1 = k'
  · rw [if_pos h]
    exact List.find?_cons_of_pos _ (by simpa using h)
  · rw [if_neg h]
    exact List.find?_cons_of_neg _ (by simpa using h)

theorem hget_append_right (m : HMap) (k : String) (v : JVal)
    (h : ∀ p ∈ m, p.1 ≠ k) : hget (m ++ [(k, v)]) k = some v := by
  induction m with
  | nil => simp [hget, List.find?]
  | cons q tl ih =>
    have hq : q.1 ≠ k := h q (by simp)
    unfold hget at ih ⊢
    rw [List.cons_append, find?_key_cons, if_neg hq]
    exact ih (fun p hp => h p (by simp [hp]))

theorem hget_hset_same (m : HMap) (k : String) (v : JVal) :
    hget (hset m k v) k = some v := by
  unfold hset
  by_cases h : (List.any m fun p => p.1 = k) = true
  · rw [if_pos h]
    induction m with
    | nil => cases h
    | cons q tl ih =>
      by_cases hqk : q.1 = k
      · simp only [List.map_cons, if_pos hqk]
        unfold hget
        rw [find?_key_cons, if_pos rfl]
        rfl
      · simp only [List.any_cons, decide_eq_true_eq, Bool.or_eq_true] at h
        have htl : (List.any tl fun p => p.1 = k) = true := by
          rcases h with h | h
          · exact absurd h hqk
          · exact h
        simp only [List.map_cons, if_neg hqk]
        unfold hget
        rw [find?_key_cons, if_neg hqk]
        exact ih htl
  · rw [if_neg h]
    refine hget_append_right m k v ?_
    intro p hp hpk
    exact h (List.any_eq_true.mpr ⟨p, hp, by simpa using hpk⟩)

theorem hget_hset_other (m : HMap) (k k' : String) (v : JVal) (hne : k' ≠ k) :
    hget (hset m k v) k' = hget m k' := by
  unfold hset
  by_cases h : (List.any m fun p => p.1 = k) = true
  · rw [if_pos h]
    induction m with
    | nil => rfl
    | cons q tl ih =>
      by_cases hqk : q.1 = k
      · simp only [List.map_cons, if_pos hqk]
        unfold hget
        rw [find?_key_cons, if_neg (show ¬((k, v).1 = k') from fun hc => hne hc.symm),
          find?_key_cons, if_neg (show ¬(q.1 = k') by rw [hqk]; exact fun hc => hne hc.symm)]
        by_cases htl : (List.any tl fun p => p.1 = k) = true
        · exact ih htl
        · have hid : List.map (fun p => if p.1 = k then (k, v) else p) tl = tl := by
            refine (List.map_congr_left ?_).trans (List.map_id tl)
            intro p hp
            rw [if_neg (fun hpk =>
              htl (List.any_eq_true.mpr ⟨p, hp, by simpa using hpk⟩))]
            rfl
          rw [hid]
      · simp only [List.any_cons, decide_eq_true_eq, Bool.or_eq_true] at h
        have htl : (List.any tl fun p => p.1 = k) = true := by
          rcases h with h | h
          · exact absurd h hqk
          · exact h
        simp only [List.map_cons, if_neg hqk]
        unfold hget
        rw [find?_key_cons, find?_key_cons]
        by_cases hq' : q.1 = k'
        · rw [if_pos hq', if_pos hq']
        · rw [if_neg hq', if_neg hq']
          exact ih htl
  · rw [if_neg h]
    induction m with
    | nil =>
      unfold hget
      rw [List.nil_append, find?_key_cons,
        if_neg (show ¬((k, v).1 = k') from fun hc => hne hc.symm)]
    | cons q tl ih =>
      simp only [List.any_cons, decide_eq_true_eq, Bool.or_eq_true] at h
      push_neg at h
      have htl : ¬(List.any tl fun p => p.1 = k) = true := by
        simpa using h.2
      unfold hget
      rw [List.cons_append, find?_key_cons, find?_key_cons]
      by_cases hq' : q.1 = k'
      · rw [if_pos hq', if_pos hq']
      · rw [if_neg hq', if_neg hq']
        exact ih htl

theorem hremove_hset_absent (m : HMap) (k : String) (v : JVal)
    (h : hget m k = none) : hremove (hset m k v) k = m := by
  have hfind : List.find? (fun p => decide (p.1 = k)) m = none := by
    unfold hget at h
    cases hf : List.find? (fun p => decide (p.1 = k)) m with
    | none => rfl
    | some p => rw [hf] at h; simp at h
  have hmem : ∀ p ∈ m, p.1 ≠ k := by
    intro p hp
    have := List.find?_eq_none.mp hfind p hp
    simpa using this
  have habs : (List.any m fun p => p.1 = k) = false := by
    rw [List.any_eq_false]
    intro p hp
    simpa using hmem p hp
  unfold hremove hset
  rw [if_neg (by simp [habs])]
  rw [List.filter_append]
  have h2 : List.filter (fun p => decide (p.1 ≠ k)) [(k, v)] = [] := by simp
  have h1 : List.filter (fun p => decide (p.1 ≠ k)) m = m :=
    List.filter_eq_self.mpr (fun p hp => by simpa using hmem p hp)
  rw [h1, h2, List.append_nil]

theorem hget_none_keys (m : HMap) (k : String) (h : ∀ p ∈ m, p.1 ≠ k) : hget m k = none := by
  unfold hget
  rw [List.find?_eq_none.mpr (fun p hp => by simpa using h p hp)]
  rfl

theorem hget_key_mem (m : HMap) (k : String) (v : JVal) (h : hget m k = some v) :
    ∃ p ∈ m, p.1 = k := by
  unfold hget at h
  cases hf : List.find? (fun p => decide (p.1 = k)) m with
  | none => rw [hf] at h; cases h
  | some p =>
    refine ⟨p, List.mem_of_find?_eq_some hf, ?_⟩
    have := List.find?_some hf
    simpa using this

theorem hremove_absent (m : HMap) (k : String) (h : hget m k = none) : hremove m k = m := by
  have hfind : List.find? (fun p => decide (p.1 = k)) m = none := by
    unfold hget at h
    cases hf : List.find? (fun p => decide (p.1 = k)) m with
    | none => rfl
    | some p => rw [hf] at h; cases h
  have hmem : ∀ p ∈ m, p.1 ≠ k := by
    intro p hp
    have := List.find?_eq_none.mp hfind p hp
    simpa using this
  unfold hremove
  exact List.filter_eq_self.mpr (fun p hp => by simpa using hmem p hp)

theorem decrypt_blob_fields (P : CryptoPrims) (algId : ℕ) (salt nonce mb ct : List ℕ)
    (pwd : String) (hpw : pwd ≠ "") (hs : salt.length = 16) (hn : nonce.length = 12)
    (hmb : mb.length < 2 ^ 32) :
    decrypt_blob_v1 P (magicEnvelope ++ [algId] ++ salt ++ nonce ++ be4 mb.length ++ mb ++ ct) pwd
      = (if algId = 1 then
          match P.aesgcmD (P.kdf pwd salt) nonce ct mb with
          | some pt =>
            match decHeader mb with
            | some meta => .ok (pt, meta)
            | none => .error "invalid metadata"
          | none => .error "AuthenticationError"
        else if algId = 2 then
          match P.chachaD (P.kdf pwd salt) nonce ct mb with
          | some pt =>
            match decHeader mb with
            | some meta => .ok (pt, meta)
            | none => .error "invalid metadata"
          | none => .error "AuthenticationError"
        else .error "unsupported algorithm id") := by
  have hmagic6 : magicEnvelope.length = 6 := rfl
  have hbe4 : (be4 mb.length).length = 4 := rfl
  set B := magicEnvelope ++ [algId] ++ salt ++ nonce ++ be4 mb.length ++ mb ++ ct with hB
  have hs6 : B = magicEnvelope ++ ([algId] ++ (salt ++ (nonce ++ (be4 mb.length ++ (mb ++ ct))))) := by
    simp [hB, List.append_assoc]
  have hlenB : ¬(B.length < 6 + 1 + 16 + 12 + 4) := by
    rw [hs6]
    simp only [List.length_append, hs, hn, hmagic6, hbe4, List.length_cons,
      List.length_nil, not_lt]
    omega
  have htake6 : B.take 6 = magicEnvelope := by
    rw [hs6]
    exact List.take_left' hmagic6
  have hd6 : B.drop 6 = [algId] ++ (salt ++ (nonce ++ (be4 mb.length ++ (mb ++ ct)))) := by
    rw [hs6]
    exact List.drop_left' hmagic6
  have hd7 : B.drop 7 = salt ++ (nonce ++ (be4 mb.length ++ (mb ++ ct))) := by
    have h1 : B.drop 7 = (B.drop 6).drop 1 := by
      rw [List.drop_drop]
    rw [h1, hd6]
    rfl
  have hd23 : B.drop 23 = nonce ++ (be4 mb.length ++ (mb ++ ct)) := by
    have h1 : B.drop 23 = (B.drop 7).drop 16 := by
      rw [List.drop_drop]
    rw [h1, hd7]
    exact List.drop_left' hs
  have hd35 : B.drop 35 = be4 mb.length ++ (mb ++ ct) := by
    have h1 : B.drop 35 = (B.drop 23).drop 12 := by
      rw [List.drop_drop]
    rw [h1, hd23]
    exact List.drop_left' hn
  have hd39 : B.drop 39 = mb ++ ct := by
    have h1 : B.drop 39 = (B.drop 35).drop 4 := by
      rw [List.drop_drop]
    rw [h1, hd35]
    exact List.drop_left' hbe4
  have hfAlg : (B.drop 6).headD 0 = algId := by
    rw [hd6]
    rfl
  have hfSalt : (B.drop 7).take 16 = salt := by
    rw [hd7]
    exact List.take_left' hs
  have hfNonce : (B.drop 23).take 12 = nonce := by
    rw [hd23]
    exact List.take_left' hn
  have hfL : fromBe ((B.drop 35).take 4) = mb.length := by
    rw [hd35, List.take_left' hbe4]
    exact fromBe_be4 _ hmb
  have hfMb : (B.drop 39).take mb.length = mb := by
    rw [hd39]
    exact List.take_left' rfl
  have hfCt : B.drop (39 + mb.length) = ct := by
    have h1 : B.drop (39 + mb.length) = (B.drop 39).drop mb.length := by
      rw [List.drop_drop, Nat.add_comm]
    rw [h1, hd39]
    exact List.drop_left' rfl
  unfold decrypt_blob_v1
  rw [if_neg hpw, if_neg hlenB, if_neg (not_not_intro htake6)]
  simp only [hfAlg, hfL, hfMb, hfCt, hfSalt, hfNonce]

/-- C3 counterexample: with `meta = {"kdf": "argon2"}` the round trip
returns `meta'` whose `"kdf"` entry is the injected `"scrypt"`, not the
caller's `"argon2"` — so `meta'` is not a superset of `meta`, refuting
the claim as stated for every metadata dict. -/
theorem decrypt_metadata_superset_fails :
    (Except.bind
      (encrypt_blob_v1 toyPrims (List.replicate 16 7) (List.replicate 12 9)
        [49] "pw" "aes-256-gcm" [("kdf", JVal.s "argon2")])
      (fun blob => decrypt_blob_v1 toyPrims blob "pw"))
      = .ok ([49], [("kdf", JVal.s "scrypt"), ("alg", JVal.s "aes-256-gcm")]) ∧
    hget [("kdf", JVal.s "argon2")] "kdf" = some (JVal.s "argon2") ∧
    hget [("kdf", JVal.s "scrypt"), ("alg", JVal.s "aes-256-gcm")] "kdf"
      ≠ some (JVal.s "argon2") := by
  refine ⟨by decide, by decide, by decide⟩

/-- C3 (amended): for every plaintext, non-empty password, algorithm
normalizing to one of the two supported AEADs, and metadata dict,
`decrypt(encrypt(...))` under the same password returns the plaintext
together with `meta' = meta ∪ {kdf ↦ scrypt, alg ↦ algorithm}`; every
key of `meta` other than the injected `"kdf"`/`"alg"` (which are
overwritten) survives unchanged; decrypting with a different non-empty
password fails with `AuthenticationError` and never returns plaintext,
while a different empty password fails with the `InvalidArgument`-class
"password is required". -/
theorem encrypt_decrypt_blob_v1 (P : CryptoPrims) (salt nonce plaintext : List ℕ)
    (password algorithm : String) (aad : HMap)
    (hsalt : salt.length = 16) (hnonce : nonce.length = 12) (hpw : password ≠ "")
    (halg : strNormAlg algorithm = "aes-256-gcm" ∨
      strNormAlg algorithm = "chacha20-poly1305")
    (hmblen : (encHeader (hset (hset aad "kdf" (.s "scrypt")) "alg"
        (.s (strNormAlg algorithm)))).length ≤ 2 ^ 32 - 1) :
    ∃ blob,
      encrypt_blob_v1 P salt nonce plaintext password algorithm aad = .ok blob ∧
      decrypt_blob_v1 P blob password =
        .ok (plaintext,
          hset (hset aad "kdf" (.s "scrypt")) "alg" (.s (strNormAlg algorithm))) ∧
      (∀ k v, k ≠ "kdf" → k ≠ "alg" → hget aad k = some v →
        hget (hset (hset aad "kdf" (.s "scrypt")) "alg" (.s (strNormAlg algorithm))) k
          = some v) ∧
      hget (hset (hset aad "kdf" (.s "scrypt")) "alg" (.s (strNormAlg algorithm))) "kdf"
        = some (.s "scrypt") ∧
      hget (hset (hset aad "kdf" (.s "scrypt")) "alg" (.s (strNormAlg algorithm))) "alg"
        = some (.s (strNormAlg algorithm)) ∧
      (∀ pwx, pwx ≠ password → pwx ≠ "" →
        decrypt_blob_v1 P blob pwx = .error "AuthenticationError") ∧
      decrypt_blob_v1 P blob "" = .error "password is required" := by
  rcases halg with ha | ha <;> rw [ha] at hmblen ⊢
  · refine ⟨magicEnvelope ++ [1] ++ salt ++ nonce ++
      be4 (encHeader (hset (hset aad "kdf" (.s "scrypt")) "alg" (.s "aes-256-gcm"))).length ++
      encHeader (hset (hset aad "kdf" (.s "scrypt")) "alg" (.s "aes-256-gcm")) ++
      P.aesgcmE (P.kdf password salt) nonce plaintext
        (encHeader (hset (hset aad "kdf" (.s "scrypt")) "alg" (.s "aes-256-gcm"))),
      ?_, ?_, ?_, ?_, ?_, ?_, ?_⟩
    · unfold encrypt_blob_v1
      rw [if_neg hpw, ha]
      rw [if_neg (not_not_intro (Or.inl rfl)), if_neg (by omega)]
      norm_num
    · rw [decrypt_blob_fields P 1 salt nonce _ _ password hpw hsalt hnonce (by omega),
        if_pos rfl, P.aes_rt, decHeader_encHeader]
    · intro k v hk1 hk2 hv
      rw [hget_hset_other _ _ _ _ hk2, hget_hset_other _ _ _ _ hk1]
      exact hv
    · rw [hget_hset_other _ _ _ _ (by decide), hget_hset_same]
    · exact hget_hset_same _ _ _
    · intro pwx hne hne2
      rw [decrypt_blob_fields P 1 salt nonce _ _ pwx hne2 hsalt hnonce (by omega),
        if_pos rfl, P.aes_auth _ _ _ _ _ (P.kdf_inj pwx password salt hne)]
    · unfold decrypt_blob_v1
      rw [if_pos rfl]
  · refine ⟨magicEnvelope ++ [2] ++ salt ++ nonce ++
      be4 (encHeader (hset (hset aad "kdf" (.s "scrypt")) "alg" (.s "chacha20-poly1305"))).length ++
      encHeader (hset (hset aad "kdf" (.s "scrypt")) "alg" (.s "chacha20-poly1305")) ++
      P.chachaE (P.kdf password salt) nonce plaintext
        (encHeader (hset (hset aad "kdf" (.s "scrypt")) "alg" (.s "chacha20-poly1305"))),
      ?_, ?_, ?_, ?_, ?_, ?_, ?_⟩
    · unfold encrypt_blob_v1
      rw [if_neg hpw, ha]
      rw [if_neg (not_not_intro (Or.inr rfl)), if_neg (by omega)]
      norm_num
      exact ⟨by decide, fun hc => absurd hc (by decide)⟩
    · rw [decrypt_blob_fields P 2 salt nonce _ _ password hpw hsalt hnonce (by omega),
        if_neg (by norm_num), if_pos rfl, P.chacha_rt, decHeader_encHeader]
    · intro k v hk1 hk2 hv
      rw [hget_hset_other _ _ _ _ hk2, hget_hset_other _ _ _ _ hk1]
      exact hv
    · rw [hget_hset_other _ _ _ _ (by decide), hget_hset_same]
    · exact hget_hset_same _ _ _
    · intro pwx hne hne2
      rw [decrypt_blob_fields P 2 salt nonce _ _ pwx hne2 hsalt hnonce (by omega),
        if_neg (by norm_num), if_pos rfl,
        P.chacha_auth _ _ _ _ _ (P.kdf_inj pwx password salt hne)]
    · unfold decrypt_blob_v1
      rw [if_pos rfl]

/-- Witness for `encrypt_decrypt_blob_v1` at the toy primitives,
`salt = 7^16`, `nonce = 9^12`, plaintext `[49, 50]`, password `"pw"`,
algorithm `"AES-256-GCM"` (normalizing to `"aes-256-gcm"`), and metadata
`{"a": 1}`. -/
theorem encrypt_decrypt_blob_v1_witness :
    ∃ blob,
      encrypt_blob_v1 toyPrims (List.replicate 16 7) (List.replicate 12 9) [49, 50]
        "pw" "AES-256-GCM" [("a", JVal.i 1)] = .ok blob ∧
      decrypt_blob_v1 toyPrims blob "pw" =
        .ok ([49, 50],
          hset (hset [("a", JVal.i 1)] "kdf" (.s "scrypt")) "alg"
            (.s (strNormAlg "AES-256-GCM"))) ∧
      (∀ k v, k ≠ "kdf" → k ≠ "alg" → hget [("a", JVal.i 1)] k = some v →
        hget (hset (hset [("a", JVal.i 1)] "kdf" (.s "scrypt")) "alg"
          (.s (strNormAlg "AES-256-GCM"))) k = some v) ∧
      hget (hset (hset [("a", JVal.i 1)] "kdf" (.s "scrypt")) "alg"
        (.s (strNormAlg "AES-256-GCM"))) "kdf" = some (.s "scrypt") ∧
      hget (hset (hset [("a", JVal.i 1)] "kdf" (.s "scrypt")) "alg"
        (.s (strNormAlg "AES-256-GCM"))) "alg" = some (.s (strNormAlg "AES-256-GCM")) ∧
      (∀ pwx, pwx ≠ "pw" → pwx ≠ "" →
        decrypt_blob_v1 toyPrims blob pwx = .error "AuthenticationError") ∧
      decrypt_blob_v1 toyPrims blob "" = .error "password is required" :=
  encrypt_decrypt_blob_v1 toyPrims (List.replicate 16 7) (List.replicate 12 9) [49, 50]
    "pw" "AES-256-GCM" [("a", JVal.i 1)] (by decide) (by decide) (by decide)
    (Or.inl (by decide)) (by decide)

/-- C7 counterexample: the compression string `"gz"` lies outside the
claimed set `{none, gzip}` yet `ChunkedWriter` accepts it (the source
set is `{"none", "gzip", "gz"}`), refuting "for every compression string
outside `{none, gzip}` it fails". -/
theorem writer_accepts_gz_compression :
    checkWriterArgs "gz" "none" "" = .ok ("gz", "none") ∧
    "gz" ≠ "none" ∧ "gz" ≠ "gzip" := by
  refine ⟨by decide, by decide, by decide⟩

/-- C7 (amended): `ChunkedWriter` validates the *normalized* selectors
(lowercased, stripped, empty treated as `"none"`): it succeeds exactly
when the normalized compression is in `{none, gzip, gz}` and the
normalized encryption is `"none"` or a supported AEAD with a non-empty
password; outside that, it fails with the `InvalidArgument`-class error
of the first failing check (unsupported compression; missing password —
checked before the encryption name; unsupported encryption). -/
theorem checkWriterArgs_spec (compression encryption password : String) :
    ((checkWriterArgs compression encryption password).isOk = true ↔
      ((pyNorm compression = "none" ∨ pyNorm compression = "gzip" ∨
        pyNorm compression = "gz") ∧
       (pyNorm encryption = "none" ∨
        ((pyNorm encryption = "aes-256-gcm" ∨ pyNorm encryption = "chacha20-poly1305") ∧
         password ≠ "")))) ∧
    (¬(pyNorm compression = "none" ∨ pyNorm compression = "gzip" ∨
        pyNorm compression = "gz") →
      checkWriterArgs compression encryption password = .error "unsupported compression") ∧
    ((pyNorm compression = "none" ∨ pyNorm compression = "gzip" ∨
        pyNorm compression = "gz") →
      pyNorm encryption ≠ "none" → password = "" →
      checkWriterArgs compression encryption password =
        .error "password is required for encryption") ∧
    ((pyNorm compression = "none" ∨ pyNorm compression = "gzip" ∨
        pyNorm compression = "gz") →
      pyNorm encryption ≠ "none" → password ≠ "" →
      ¬(pyNorm encryption = "aes-256-gcm" ∨ pyNorm encryption = "chacha20-poly1305") →
      checkWriterArgs compression encryption password =
        .error "unsupported encryption") := by
  unfold checkWriterArgs
  refine ⟨?_, ?_, ?_, ?_⟩
  · by_cases h1 : pyNorm compression = "none" ∨ pyNorm compression = "gzip" ∨
        pyNorm compression = "gz"
    · rw [if_neg (not_not_intro h1)]
      by_cases h2 : pyNorm encryption = "none"
      · rw [if_neg (not_not_intro h2)]
        simp only [Except.isOk, Except.toBool]
        exact ⟨fun _ => ⟨h1, Or.inl h2⟩, fun _ => trivial⟩
      · rw [if_pos h2]
        by_cases h3 : password = ""
        · rw [if_pos h3]
          simp only [Except.isOk, Except.toBool]
          constructor
          · intro hc
            cases hc
          · rintro ⟨-, hor⟩
            rcases hor with h | ⟨-, hpw⟩
            · exact absurd h h2
            · exact absurd h3 hpw
        · rw [if_neg h3]
          by_cases h4 : pyNorm encryption = "aes-256-gcm" ∨
              pyNorm encryption = "chacha20-poly1305"
          · rw [if_neg (not_not_intro h4)]
            simp only [Except.isOk, Except.toBool]
            exact ⟨fun _ => ⟨h1, Or.inr ⟨h4, h3⟩⟩, fun _ => trivial⟩
          · rw [if_pos h4]
            simp only [Except.isOk, Except.toBool]
            constructor
            · intro hc
              cases hc
            · rintro ⟨-, hor⟩
              rcases hor with h | ⟨ha, -⟩
              · exact absurd h h2
              · exact absurd ha h4
    · rw [if_pos h1]
      simp only [Except.isOk, Except.toBool]
      constructor
      · intro hc
        cases hc
      · rintro ⟨hc, -⟩
        exact absurd hc h1
  · intro h
    rw [if_pos h]
  · intro h1 h2 h3
    rw [if_neg (not_not_intro h1), if_pos h2, if_pos h3]
  · intro h1 h2 h3 h4
    rw [if_neg (not_not_intro h1), if_pos h2, if_neg h3, if_pos h4]

/-- Witness for `checkWriterArgs_spec`: `("GZIP ", "aes-256-gcm", "pw")`
normalizes to an accepted configuration; `("lz4", "none", "")` fails
with "unsupported compression"; `("none", "aes-256-gcm", "")` fails
with the password check. -/
theorem checkWriterArgs_spec_witness :
    (checkWriterArgs "GZIP " "aes-256-gcm" "pw").isOk = true ∧
    checkWriterArgs "lz4" "none" "" = .error "unsupported compression" ∧
    checkWriterArgs "none" "aes-256-gcm" "" =
      .error "password is required for encryption" := by
  refine ⟨?_, ?_, ?_⟩
  · exact (checkWriterArgs_spec "GZIP " "aes-256-gcm" "pw").1.mpr
      ⟨Or.inr (Or.inl (by decide)), Or.inr ⟨Or.inl (by decide), by decide⟩⟩
  · exact (checkWriterArgs_spec "lz4" "none" "").2.1 (by decide)
  · exact (checkWriterArgs_spec "none" "aes-256-gcm" "").2.2.1
      (Or.inl (by decide)) (by decide) rfl

theorem hexOfBytes_length (l : List ℕ) : (hexOfBytes l).length = 2 * l.length := by
  induction l with
  | nil => rfl
  | cons b tl ih =>
    show (List.flatten (List.map (fun b => [hexChar (b / 16 % 16), hexChar (b % 16)]) (b :: tl))).length = _
    rw [List.map_cons, List.flatten_cons, List.length_append]
    have ih2 : (List.flatten (List.map (fun b => [hexChar (b / 16 % 16), hexChar (b % 16)]) tl)).length
        = 2 * tl.length := ih
    rw [ih2]
    simp [List.length_cons]
    omega

theorem writerHashHex_ne_empty (P : CryptoPrims) (metadata : HMap) (c e : String)
    (salt : List ℕ) : writerHashHex P metadata c e salt ≠ "" := by
  intro hc
  have h := congrArg String.length hc
  unfold writerHashHex at h
  rw [hexOfBytes_length, P.hash256_len] at h
  simp [String.length] at h

/-- Keys the writer adds to the header; caller metadata must avoid them
for "pass-through" to be meaningful. -/
def reservedKeys : List String :=
  ["version", "hash", "compression", "encryption", "kdf", "salt", "nonce_len", "header_hash"]

theorem hget_writerBase_nonreserved (metadata : HMap) (c e : String) (salt : List ℕ)
    (k : String) (hk : ¬ k ∈ reservedKeys) :
    hget (writerBase metadata c e salt) k = hget metadata k := by
  simp only [reservedKeys, List.mem_cons, List.not_mem_nil, or_false] at hk
  push_neg at hk
  obtain ⟨h1, h2, h3, h4, h5, h6, h7, h8⟩ := hk
  unfold writerBase
  by_cases he : e ≠ "none"
  · rw [if_pos he]
    rw [hget_hset_other _ _ _ _ h7, hget_hset_other _ _ _ _ h6, hget_hset_other _ _ _ _ h5,
      hget_hset_other _ _ _ _ h4, hget_hset_other _ _ _ _ h3, hget_hset_other _ _ _ _ h2,
      hget_hset_other _ _ _ _ h1]
  · rw [if_neg he]
    rw [hget_hset_other _ _ _ _ h4, hget_hset_other _ _ _ _ h3, hget_hset_other _ _ _ _ h2,
      hget_hset_other _ _ _ _ h1]

theorem hget_writerHeader_nonreserved (P : CryptoPrims) (metadata : HMap) (c e : String)
    (salt : List ℕ) (k : String) (hk : ¬ k ∈ reservedKeys) :
    hget (writerHeader P metadata c e salt) k = hget metadata k := by
  have hhh : k ≠ "header_hash" := by
    intro hc
    exact hk (by simp [reservedKeys, hc])
  unfold writerHeader
  rw [hget_hset_other _ _ _ _ hhh]
  exact hget_writerBase_nonreserved metadata c e salt k hk

theorem hget_writerHeader_headerHash (P : CryptoPrims) (metadata : HMap) (c e : String)
    (salt : List ℕ) :
    hget (writerHeader P metadata c e salt) "header_hash"
      = some (.s (writerHashHex P metadata c e salt)) :=
  hget_hset_same _ _ _

theorem hget_writerBase_headerHash (metadata : HMap) (c e : String) (salt : List ℕ) :
    hget (writerBase metadata c e salt) "header_hash" = hget metadata "header_hash" := by
  unfold writerBase
  by_cases he : e ≠ "none"
  · rw [if_pos he]
    rw [hget_hset_other _ _ _ _ (by decide), hget_hset_other _ _ _ _ (by decide),
      hget_hset_other _ _ _ _ (by decide), hget_hset_other _ _ _ _ (by decide),
      hget_hset_other _ _ _ _ (by decide), hget_hset_other _ _ _ _ (by decide),
      hget_hset_other _ _ _ _ (by decide)]
  · rw [if_neg he]
    rw [hget_hset_other _ _ _ _ (by decide), hget_hset_other _ _ _ _ (by decide),
      hget_hset_other _ _ _ _ (by decide), hget_hset_other _ _ _ _ (by decide)]

theorem hremove_writerHeader (P : CryptoPrims) (metadata : HMap) (c e : String)
    (salt : List ℕ) (hmeta : hget metadata "header_hash" = none) :
    hremove (writerHeader P metadata c e salt) "header_hash"
      = writerBase metadata c e salt := by
  unfold writerHeader
  refine hremove_hset_absent _ _ _ ?_
  rw [hget_writerBase_headerHash]
  exact hmeta

theorem hget_writerBase_compression (metadata : HMap) (c e : String) (salt : List ℕ) :
    hget (writerBase metadata c e salt) "compression" = some (.s c) := by
  unfold writerBase
  by_cases he : e ≠ "none"
  · rw [if_pos he]
    rw [hget_hset_other _ _ _ _ (by decide), hget_hset_other _ _ _ _ (by decide),
      hget_hset_other _ _ _ _ (by decide), hget_hset_other _ _ _ _ (by decide),
      hget_hset_same]
  · rw [if_neg he]
    rw [hget_hset_other _ _ _ _ (by decide), hget_hset_same]

theorem hget_writerBase_encryption (metadata : HMap) (c e : String) (salt : List ℕ) :
    hget (writerBase metadata c e salt) "encryption" = some (.s e) := by
  unfold writerBase
  by_cases he : e ≠ "none"
  · rw [if_pos he]
    rw [hget_hset_other _ _ _ _ (by decide), hget_hset_other _ _ _ _ (by decide),
      hget_hset_other _ _ _ _ (by decide), hget_hset_same]
  · rw [if_neg he]
    rw [hget_hset_same]

theorem hget_writerBase_nonceLen (metadata : HMap) (c e : String) (salt : List ℕ)
    (he : e ≠ "none") :
    hget (writerBase metadata c e salt) "nonce_len" = some (.i 12) := by
  unfold writerBase
  rw [if_pos he, hget_hset_same]

theorem hget_writerBase_salt (metadata : HMap) (c e : String) (salt : List ℕ)
    (he : e ≠ "none") :
    hget (writerBase metadata c e salt) "salt" = some (.s (b64OfBytes salt)) := by
  unfold writerBase
  rw [if_pos he, hget_hset_other _ _ _ _ (by decide), hget_hset_same]

theorem hget_writerHeader_compression (P : CryptoPrims) (metadata : HMap) (c e : String)
    (salt : List ℕ) :
    hget (writerHeader P metadata c e salt) "compression" = some (.s c) := by
  unfold writerHeader
  rw [hget_hset_other _ _ _ _ (by decide), hget_writerBase_compression]

theorem hget_writerHeader_encryption (P : CryptoPrims) (metadata : HMap) (c e : String)
    (salt : List ℕ) :
    hget (writerHeader P metadata c e salt) "encryption" = some (.s e) := by
  unfold writerHeader
  rw [hget_hset_other _ _ _ _ (by decide), hget_writerBase_encryption]

theorem hget_writerHeader_nonceLen (P : CryptoPrims) (metadata : HMap) (c e : String)
    (salt : List ℕ) (he : e ≠ "none") :
    hget (writerHeader P metadata c e salt) "nonce_len" = some (.i 12) := by
  unfold writerHeader
  rw [hget_hset_other _ _ _ _ (by decide), hget_writerBase_nonceLen _ _ _ _ he]

theorem hget_writerHeader_salt (P : CryptoPrims) (metadata : HMap) (c e : String)
    (salt : List ℕ) (he : e ≠ "none") :
    hget (writerHeader P metadata c e salt) "salt" = some (.s (b64OfBytes salt)) := by
  unfold writerHeader
  rw [hget_hset_other _ _ _ _ (by decide), hget_writerBase_salt _ _ _ _ he]

theorem readerInit_parse (P : CryptoPrims) (hdr : HMap) (rest : List ℕ) (password : String)
    (hlen : (encHeader hdr).length < 2 ^ 32) :
    readerInit P (magicChunked ++ be4 (encHeader hdr).length ++ encHeader hdr ++ rest) password
      = (if (match hget hdr "header_hash" with
            | some j => jTruthy j &&
                !(jEqString j (hexOfBytes (P.hash256 (encHeader (hremove hdr "header_hash")))))
            | none => false) then .error "header hash mismatch"
        else
          if ¬(strTrim (strLower (pyStrOr (hget hdr "compression") "none")) = "none" ∨
              strTrim (strLower (pyStrOr (hget hdr "compression") "none")) = "gzip" ∨
              strTrim (strLower (pyStrOr (hget hdr "compression") "none")) = "gz") then
            .error "unsupported compression"
          else if strTrim (strLower (pyStrOr (hget hdr "encryption") "none")) ≠ "none" then
            if password = "" then .error "password is required for decryption"
            else
              match hget hdr "salt" with
              | some (.s saltB64) =>
                if saltB64 = "" then .error "missing salt"
                else .ok (⟨hdr,
                  strTrim (strLower (pyStrOr (hget hdr "compression") "none")),
                  strTrim (strLower (pyStrOr (hget hdr "encryption") "none")),
                  pyIntOr (hget hdr "nonce_len"),
                  some (P.kdf password (bytesOfB64 saltB64)),
                  bytesOfHex (hexOfBytes (P.hash256 (encHeader (hremove hdr "header_hash"))))⟩,
                  rest)
              | _ => .error "missing salt"
          else .ok (⟨hdr,
            strTrim (strLower (pyStrOr (hget hdr "compression") "none")),
            strTrim (strLower (pyStrOr (hget hdr "encryption") "none")),
            pyIntOr (hget hdr "nonce_len"), none,
            bytesOfHex (hexOfBytes (P.hash256 (encHeader (hremove hdr "header_hash"))))⟩,
            rest)) := by
  have hm8 : magicChunked.length = 8 := rfl
  have hbe : (be4 (encHeader hdr).length).length = 4 := rfl
  set S := magicChunked ++ be4 (encHeader hdr).length ++ encHeader hdr ++ rest with hS
  have hS' : S = magicChunked ++ (be4 (encHeader hdr).length ++ (encHeader hdr ++ rest)) := by
    simp [hS, List.append_assoc]
  have htake8 : S.take 8 = magicChunked := by
    rw [hS']
    exact List.take_left' hm8
  have hd8 : S.drop 8 = be4 (encHeader hdr).length ++ (encHeader hdr ++ rest) := by
    rw [hS']
    exact List.drop_left' hm8
  have hd8len : ¬((S.drop 8).length < 4) := by
    rw [hd8]
    simp [List.length_append, hbe]
  have htake4 : (S.drop 8).take 4 = be4 (encHeader hdr).length := by
    rw [hd8]
    exact List.take_left' hbe
  have hfrom : fromBe ((S.drop 8).take 4) = (encHeader hdr).length := by
    rw [htake4]
    exact fromBe_be4 _ hlen
  have hd12 : S.drop 12 = encHeader hdr ++ rest := by
    have h1 : S.drop 12 = (S.drop 8).drop 4 := by
      rw [List.drop_drop]
    rw [h1, hd8]
    exact List.drop_left' hbe
  have htakeL : (S.drop 12).take (encHeader hdr).length = encHeader hdr := by
    rw [hd12]
    exact List.take_left' rfl
  have hdropL : (S.drop 12).drop (encHeader hdr).length = rest := by
    rw [hd12]
    exact List.drop_left' rfl
  unfold readerInit
  rw [if_neg (not_not_intro htake8), if_neg hd8len]
  simp only [hfrom, htakeL, hdropL]
  rw [if_neg (not_not_intro rfl), decHeader_encHeader]

theorem readChunk_plain (P : CryptoPrims) (cfg : ReaderCfg) (index : ℕ) (raw rest : List ℕ)
    (hc : ¬(cfg.compression = "gzip" ∨ cfg.compression = "gz"))
    (he : cfg.encryption = "none") (hraw : raw.length < 2 ^ 32) :
    readChunk P cfg index
      (be4 raw.length ++ (be4 raw.length ++ (P.hash256 raw ++ (raw ++ rest))))
      = .ok (some (raw, rest)) := by
  have hbe : (be4 raw.length).length = 4 := rfl
  have hh32 := P.hash256_len raw
  set S := be4 raw.length ++ (be4 raw.length ++ (P.hash256 raw ++ (raw ++ rest))) with hS
  have hSlen : S.length = 4 + (4 + (32 + (raw.length + rest.length))) := by
    simp [hS, List.length_append, hbe, hh32]
  have hne : ¬(S = []) := by
    intro hco
    rw [hco] at hSlen
    simp only [List.length_nil] at hSlen
    omega
  have hlt8 : ¬(S.length < 8) := by
    omega
  have htake4 : S.take 4 = be4 raw.length := List.take_left' hbe
  have hd4 : S.drop 4 = be4 raw.length ++ (P.hash256 raw ++ (raw ++ rest)) :=
    List.drop_left' hbe
  have htake44 : (S.drop 4).take 4 = be4 raw.length := by
    rw [hd4]
    exact List.take_left' hbe
  have hd8 : S.drop 8 = P.hash256 raw ++ (raw ++ rest) := by
    have h1 : S.drop 8 = (S.drop 4).drop 4 := by
      rw [List.drop_drop]
    rw [h1, hd4]
    exact List.drop_left' hbe
  have htake32 : (S.drop 8).take 32 = P.hash256 raw := by
    rw [hd8]
    exact List.take_left' hh32
  have hd40 : (S.drop 8).drop 32 = raw ++ rest := by
    rw [hd8]
    exact List.drop_left' hh32
  have hfrom : fromBe (S.take 4) = raw.length := by
    rw [htake4]
    exact fromBe_be4 _ hraw
  have hfrom2 : fromBe ((S.drop 4).take 4) = raw.length := by
    rw [htake44]
    exact fromBe_be4 _ hraw
  have htakeRaw : (raw ++ rest).take raw.length = raw := List.take_left' rfl
  have hdropRaw : (raw ++ rest).drop raw.length = rest := List.drop_left' rfl
  unfold readChunk
  rw [if_neg hne, if_neg hlt8]
  simp only [hfrom, hfrom2, htake32, hd40, he, htakeRaw, hdropRaw]
  rw [if_neg (not_not_intro hh32)]
  simp only [if_neg (show ¬(("none" : String) ≠ "none") from not_not_intro rfl)]
  rw [if_neg (show ¬(("none" : String) ≠ "none" ∧ ([] : List ℕ).length ≠ cfg.nonceLen) from
    fun hcon => hcon.1 rfl)]
  simp only [htakeRaw, hdropRaw]
  rw [if_neg (not_not_intro rfl)]
  rw [if_neg hc, if_neg (not_not_intro rfl), if_neg (not_not_intro rfl)]

theorem readChunk_enc (P : CryptoPrims) (cfg : ReaderCfg) (index : ℕ)
    (key raw nonce rest : List ℕ)
    (hc : cfg.compression = "gzip") (he : cfg.encryption = "aes-256-gcm")
    (hk : cfg.key = some key) (hnl : cfg.nonceLen = 12) (hn : nonce.length = 12)
    (hraw : raw.length < 2 ^ 32)
    (hp : (P.aesgcmE key nonce (P.gzipC raw) (cfg.hhBytes ++ be8 index)).length < 2 ^ 32) :
    readChunk P cfg index
      (be4 raw.length ++
        (be4 (P.aesgcmE key nonce (P.gzipC raw) (cfg.hhBytes ++ be8 index)).length ++
          (P.hash256 raw ++
            (nonce ++ (P.aesgcmE key nonce (P.gzipC raw) (cfg.hhBytes ++ be8 index) ++ rest)))))
      = .ok (some (raw, rest)) := by
  set payload := P.aesgcmE key nonce (P.gzipC raw) (cfg.hhBytes ++ be8 index) with hpay
  have hbe : (be4 raw.length).length = 4 := rfl
  have hbe2 : (be4 payload.length).length = 4 := rfl
  have hh32 := P.hash256_len raw
  set S := be4 raw.length ++ (be4 payload.length ++ (P.hash256 raw ++ (nonce ++ (payload ++ rest)))) with hS
  have hSlen : S.length = 4 + (4 + (32 + (12 + (payload.length + rest.length)))) := by
    simp [hS, List.length_append, hbe, hbe2, hh32, hn]
  have hne : ¬(S = []) := by
    intro hco
    rw [hco] at hSlen
    simp only [List.length_nil] at hSlen
    omega
  have hlt8 : ¬(S.length < 8) := by
    omega
  have htake4 : S.take 4 = be4 raw.length := List.take_left' hbe
  have hd4 : S.drop 4 = be4 payload.length ++ (P.hash256 raw ++ (nonce ++ (payload ++ rest))) :=
    List.drop_left' hbe
  have htake44 : (S.drop 4).take 4 = be4 payload.length := by
    rw [hd4]
    exact List.take_left' hbe2
  have hd8 : S.drop 8 = P.hash256 raw ++ (nonce ++ (payload ++ rest)) := by
    have h1 : S.drop 8 = (S.drop 4).drop 4 := by
      rw [List.drop_drop]
    rw [h1, hd4]
    exact List.drop_left' hbe2
  have htake32 : (S.drop 8).take 32 = P.hash256 raw := by
    rw [hd8]
    exact List.take_left' hh32
  have hd40 : (S.drop 8).drop 32 = nonce ++ (payload ++ rest) := by
    rw [hd8]
    exact List.drop_left' hh32
  have hfrom : fromBe (S.take 4) = raw.length := by
    rw [htake4]
    exact fromBe_be4 _ hraw
  have hfrom2 : fromBe ((S.drop 4).take 4) = payload.length := by
    rw [htake44]
    exact fromBe_be4 _ hp
  have htakeN : (nonce ++ (payload ++ rest)).take 12 = nonce := List.take_left' hn
  have hdropN : (nonce ++ (payload ++ rest)).drop 12 = payload ++ rest := List.drop_left' hn
  have htakeP : (payload ++ rest).take payload.length = payload := List.take_left' rfl
  have hdropP : (payload ++ rest).drop payload.length = rest := List.drop_left' rfl
  unfold readChunk
  rw [if_neg hne, if_neg hlt8]
  simp only [hfrom, hfrom2, htake32, hd40, he, hnl, htakeN, hdropN, htakeP, hdropP]
  rw [if_neg (not_not_intro hh32)]
  simp only [if_pos (show ("aes-256-gcm" : String) ≠ "none" by decide)]
  rw [if_neg (show ¬(("aes-256-gcm" : String) ≠ "none" ∧ nonce.length ≠ 12) from
    fun hcon => hcon.2 hn)]
  simp only [htakeP, hdropP, hn]
  rw [if_neg (not_not_intro rfl)]
  rw [hk]
  simp only [Option.getD_some]
  unfold decryptChunk
  rw [if_pos rfl, hpay, P.aes_rt]
  simp only [hc, if_pos (Or.inl rfl), P.gzip_rt]
  simp

theorem readChunks_cons (P : CryptoPrims) (cfg : ReaderCfg) (fuel index : ℕ)
    (stream data rest : List ℕ) (tl : List (List ℕ))
    (h1 : readChunk P cfg index stream = .ok (some (data, rest)))
    (h2 : readChunks P cfg fuel (index + 1) rest = .ok tl) :
    readChunks P cfg (fuel + 1) index stream = .ok (data :: tl) := by
  unfold readChunks
  rw [h1]
  show (match readChunks P cfg fuel (index + 1) rest with
    | Except.error msg => (Except.error msg : Except String (List (List ℕ)))
    | Except.ok tl => Except.ok (data :: tl)) = Except.ok (data :: tl)
  rw [h2]

theorem readChunks_nil (P : CryptoPrims) (cfg : ReaderCfg) (fuel index : ℕ) (stream : List ℕ)
    (h1 : readChunk P cfg index stream = .ok none) :
    readChunks P cfg (fuel + 1) index stream = .ok [] := by
  unfold readChunks
  rw [h1]

theorem readChunks_two_plain (P : CryptoPrims) (cfg : ReaderCfg)
    (hc : ¬(cfg.compression = "gzip" ∨ cfg.compression = "gz"))
    (he : cfg.encryption = "none") :
    readChunks P cfg 3 0
      (be4 2 ++ (be4 2 ++ (P.hash256 [49, 52] ++ ([49, 52] ++
        (be4 2 ++ (be4 2 ++ (P.hash256 [49, 53] ++ ([49, 53] ++ []))))))))
      = .ok [[49, 52], [49, 53]] :=
  readChunks_cons P cfg 2 0 _ [49, 52] _ [[49, 53]]
    (readChunk_plain P cfg 0 [49, 52] _ hc he (by norm_num))
    (readChunks_cons P cfg 1 1 _ [49, 53] [] []
      (readChunk_plain P cfg 1 [49, 53] [] hc he (by norm_num))
      (readChunks_nil P cfg 0 2 [] rfl))

theorem readChunks_two_enc (P : CryptoPrims) (cfg : ReaderCfg) (key n0 n1 : List ℕ)
    (hc : cfg.compression = "gzip") (he : cfg.encryption = "aes-256-gcm")
    (hk : cfg.key = some key) (hnl : cfg.nonceLen = 12)
    (hn0 : n0.length = 12) (hn1 : n1.length = 12)
    (hp0 : (P.aesgcmE key n0 (P.gzipC [49, 52]) (cfg.hhBytes ++ be8 0)).length < 2 ^ 32)
    (hp1 : (P.aesgcmE key n1 (P.gzipC [49, 53]) (cfg.hhBytes ++ be8 1)).length < 2 ^ 32) :
    readChunks P cfg 3 0
      (be4 2 ++ (be4 (P.aesgcmE key n0 (P.gzipC [49, 52]) (cfg.hhBytes ++ be8 0)).length
        ++ (P.hash256 [49, 52] ++ (n0 ++ (P.aesgcmE key n0 (P.gzipC [49, 52])
            (cfg.hhBytes ++ be8 0) ++
          (be4 2 ++ (be4 (P.aesgcmE key n1 (P.gzipC [49, 53]) (cfg.hhBytes ++ be8 1)).length
            ++ (P.hash256 [49, 53] ++ (n1 ++ (P.aesgcmE key n1 (P.gzipC [49, 53])
                (cfg.hhBytes ++ be8 1) ++ []))))))))))
      = .ok [[49, 52], [49, 53]] :=
  readChunks_cons P cfg 2 0 _ [49, 52] _ [[49, 53]]
    (readChunk_enc P cfg 0 key [49, 52] n0 _ hc he hk hnl hn0 (by norm_num) hp0)
    (readChunks_cons P cfg 1 1 _ [49, 53] [] []
      (readChunk_enc P cfg 1 key [49, 53] n1 [] hc he hk hnl hn1 (by norm_num) hp1)
      (readChunks_nil P cfg 0 2 [] rfl))

theorem readerInit_writer_plain (P : CryptoPrims) (metadata : HMap) (salt rest : List ℕ)
    (password : String)
    (hmhh : hget metadata "header_hash" = none)
    (hhlen : (encHeader (writerHeader P metadata "none" "none" salt)).length < 2 ^ 32) :
    readerInit P (magicChunked
        ++ be4 (encHeader (writerHeader P metadata "none" "none" salt)).length
        ++ encHeader (writerHeader P metadata "none" "none" salt) ++ rest) password
      = .ok (⟨writerHeader P metadata "none" "none" salt, "none", "none",
          pyIntOr (hget (writerHeader P metadata "none" "none" salt) "nonce_len"), none,
          bytesOfHex (writerHashHex P metadata "none" "none" salt)⟩, rest) := by
  have hbase : hget (writerBase metadata "none" "none" salt) "header_hash" = none := by
    rw [hget_writerBase_headerHash]
    exact hmhh
  have hrem := hremove_writerHeader P metadata "none" "none" salt hmhh
  have hwhh : writerHashHex P metadata "none" "none" salt
      = hexOfBytes (P.hash256 (encHeader (writerBase metadata "none" "none" salt))) := by
    unfold writerHashHex
    rw [hremove_absent _ _ hbase]
  have hcmp := hget_writerHeader_compression P metadata "none" "none" salt
  have henc := hget_writerHeader_encryption P metadata "none" "none" salt
  have hnorm : strTrim (strLower "none") = "none" := by decide
  rw [readerInit_parse P _ rest password hhlen, hrem, hget_writerHeader_headerHash, hwhh]
  simp [hcmp, henc, jTruthy, jEqString, pyStrOr, hnorm]

theorem readerInit_writer_enc (P : CryptoPrims) (metadata : HMap) (salt rest : List ℕ)
    (password : String) (hpw : password ≠ "")
    (hmhh : hget metadata "header_hash" = none)
    (hsl : salt.length = 16) (hsb : ∀ x ∈ salt, x < 256)
    (hhlen : (encHeader (writerHeader P metadata "gzip" "aes-256-gcm" salt)).length < 2 ^ 32) :
    readerInit P (magicChunked
        ++ be4 (encHeader (writerHeader P metadata "gzip" "aes-256-gcm" salt)).length
        ++ encHeader (writerHeader P metadata "gzip" "aes-256-gcm" salt) ++ rest) password
      = .ok (⟨writerHeader P metadata "gzip" "aes-256-gcm" salt, "gzip", "aes-256-gcm", 12,
          some (P.kdf password salt),
          bytesOfHex (writerHashHex P metadata "gzip" "aes-256-gcm" salt)⟩, rest) := by
  have hbase : hget (writerBase metadata "gzip" "aes-256-gcm" salt) "header_hash" = none := by
    rw [hget_writerBase_headerHash]
    exact hmhh
  have hrem := hremove_writerHeader P metadata "gzip" "aes-256-gcm" salt hmhh
  have hwhh : writerHashHex P metadata "gzip" "aes-256-gcm" salt
      = hexOfBytes (P.hash256 (encHeader (writerBase metadata "gzip" "aes-256-gcm" salt))) := by
    unfold writerHashHex
    rw [hremove_absent _ _ hbase]
  have hcmp := hget_writerHeader_compression P metadata "gzip" "aes-256-gcm" salt
  have henc := hget_writerHeader_encryption P metadata "gzip" "aes-256-gcm" salt
  have hnl := hget_writerHeader_nonceLen P metadata "gzip" "aes-256-gcm" salt (by decide)
  have hsaltg := hget_writerHeader_salt P metadata "gzip" "aes-256-gcm" salt (by decide)
  have hb64 : ¬(b64OfBytes salt = "") := by
    intro hcon
    have hlen2 : (b64OfBytes salt).data.length = 16 := by
      simp [b64OfBytes, hsl]
    rw [hcon] at hlen2
    exact absurd hlen2 (by decide)
  have hkdf : bytesOfB64 (b64OfBytes salt) = salt := bytesOfB64_b64OfBytes salt hsb
  have hng : strTrim (strLower "gzip") = "gzip" := by decide
  have hna : strTrim (strLower "aes-256-gcm") = "aes-256-gcm" := by decide
  rw [readerInit_parse P _ rest password hhlen, hrem, hget_writerHeader_headerHash, hwhh]
  simp [hcmp, henc, hnl, hsaltg, hb64, hkdf, hpw, jTruthy, jEqString, pyStrOr, pyIntOr,
    hng, hna]

theorem chunked_roundtrip_plain (P : CryptoPrims) (metadata : HMap) (salt : List ℕ)
    (hmhh : hget metadata "header_hash" = none)
    (hhlen : (encHeader (writerHeader P metadata "none" "none" salt)).length < 2 ^ 32) :
    ∃ s cfg cs,
      writerStream P metadata "none" "none" "" salt [] [[49, 52], [49, 53]] = .ok s ∧
      readerInit P s "" = .ok (cfg, cs) ∧
      cfg.header = writerHeader P metadata "none" "none" salt ∧
      readChunks P cfg 3 0 cs = .ok [[49, 52], [49, 53]] := by
  have hargs : checkWriterArgs "none" "none" "" = .ok ("none", "none") := by decide
  have hws : writerStream P metadata "none" "none" "" salt [] [[49, 52], [49, 53]]
      = .ok (magicChunked
          ++ be4 (encHeader (writerHeader P metadata "none" "none" salt)).length
          ++ encHeader (writerHeader P metadata "none" "none" salt)
          ++ writeChunks P "none" "none" (P.kdf "" salt)
              (bytesOfHex (writerHashHex P metadata "none" "none" salt)) 0 [] [[49, 52], [49, 53]]) := by
    unfold writerStream
    rw [hargs]
  have hframes : writeChunks P "none" "none" (P.kdf "" salt)
        (bytesOfHex (writerHashHex P metadata "none" "none" salt)) 0 [] [[49, 52], [49, 53]]
      = be4 2 ++ (be4 2 ++ (P.hash256 [49, 52] ++ ([49, 52] ++
          (be4 2 ++ (be4 2 ++ (P.hash256 [49, 53] ++ ([49, 53] ++ []))))))) := by
    show (be4 2 ++ be4 2 ++ P.hash256 [49, 52] ++ [] ++ [49, 52]) ++
        ((be4 2 ++ be4 2 ++ P.hash256 [49, 53] ++ [] ++ [49, 53]) ++ []) = _
    simp [List.append_assoc]
  refine ⟨_, ⟨writerHeader P metadata "none" "none" salt, "none", "none",
      pyIntOr (hget (writerHeader P metadata "none" "none" salt) "nonce_len"), none,
      bytesOfHex (writerHashHex P metadata "none" "none" salt)⟩, _,
    hws, readerInit_writer_plain P metadata salt _ "" hmhh hhlen, rfl, ?_⟩
  rw [hframes]
  exact readChunks_two_plain P _ (by simp) rfl

theorem chunked_roundtrip_enc (P : CryptoPrims) (metadata : HMap) (salt n0 n1 : List ℕ)
    (pw : String) (hpw : pw ≠ "")
    (hmhh : hget metadata "header_hash" = none)
    (hsl : salt.length = 16) (hsb : ∀ x ∈ salt, x < 256)
    (hn0 : n0.length = 12) (hn1 : n1.length = 12)
    (hhlen : (encHeader (writerHeader P metadata "gzip" "aes-256-gcm" salt)).length < 2 ^ 32)
    (hp0 : (P.aesgcmE (P.kdf pw salt) n0 (P.gzipC [49, 52])
        (bytesOfHex (writerHashHex P metadata "gzip" "aes-256-gcm" salt) ++ be8 0)).length < 2 ^ 32)
    (hp1 : (P.aesgcmE (P.kdf pw salt) n1 (P.gzipC [49, 53])
        (bytesOfHex (writerHashHex P metadata "gzip" "aes-256-gcm" salt) ++ be8 1)).length < 2 ^ 32) :
    ∃ s cfg cs,
      writerStream P metadata "gzip" "aes-256-gcm" pw salt [n0, n1] [[49, 52], [49, 53]] = .ok s ∧
      readerInit P s pw = .ok (cfg, cs) ∧
      cfg.header = writerHeader P metadata "gzip" "aes-256-gcm" salt ∧
      readChunks P cfg 3 0 cs = .ok [[49, 52], [49, 53]] := by
  have hargs : checkWriterArgs "gzip" "aes-256-gcm" pw = .ok ("gzip", "aes-256-gcm") := by
    have h0 : checkWriterArgs "gzip" "aes-256-gcm" pw
        = if pw = "" then .error "password is required for encryption"
          else .ok ("gzip", "aes-256-gcm") := rfl
    rw [h0, if_neg hpw]
  have hws : writerStream P metadata "gzip" "aes-256-gcm" pw salt [n0, n1] [[49, 52], [49, 53]]
      = .ok (magicChunked
          ++ be4 (encHeader (writerHeader P metadata "gzip" "aes-256-gcm" salt)).length
          ++ encHeader (writerHeader P metadata "gzip" "aes-256-gcm" salt)
          ++ writeChunks P "gzip" "aes-256-gcm" (P.kdf pw salt)
              (bytesOfHex (writerHashHex P metadata "gzip" "aes-256-gcm" salt)) 0 [n0, n1]
              [[49, 52], [49, 53]]) := by
    unfold writerStream
    rw [hargs]
  have hframes : writeChunks P "gzip" "aes-256-gcm" (P.kdf pw salt)
        (bytesOfHex (writerHashHex P metadata "gzip" "aes-256-gcm" salt)) 0 [n0, n1]
        [[49, 52], [49, 53]]
      = be4 2 ++ (be4 (P.aesgcmE (P.kdf pw salt) n0 (P.gzipC [49, 52])
            (bytesOfHex (writerHashHex P metadata "gzip" "aes-256-gcm" salt) ++ be8 0)).length
          ++ (P.hash256 [49, 52] ++ (n0 ++ (P.aesgcmE (P.kdf pw salt) n0 (P.gzipC [49, 52])
            (bytesOfHex (writerHashHex P metadata "gzip" "aes-256-gcm" salt) ++ be8 0) ++
          (be4 2 ++ (be4 (P.aesgcmE (P.kdf pw salt) n1 (P.gzipC [49, 53])
            (bytesOfHex (writerHashHex P metadata "gzip" "aes-256-gcm" salt) ++ be8 1)).length
          ++ (P.hash256 [49, 53] ++ (n1 ++ (P.aesgcmE (P.kdf pw salt) n1 (P.gzipC [49, 53])
            (bytesOfHex (writerHashHex P metadata "gzip" "aes-256-gcm" salt) ++ be8 1) ++
            []))))))))) := by
    show (be4 2 ++ be4 (P.aesgcmE (P.kdf pw salt) n0 (P.gzipC [49, 52])
            (bytesOfHex (writerHashHex P metadata "gzip" "aes-256-gcm" salt) ++ be8 0)).length
          ++ P.hash256 [49, 52] ++ n0 ++ P.aesgcmE (P.kdf pw salt) n0 (P.gzipC [49, 52])
            (bytesOfHex (writerHashHex P metadata "gzip" "aes-256-gcm" salt) ++ be8 0)) ++
        ((be4 2 ++ be4 (P.aesgcmE (P.kdf pw salt) n1 (P.gzipC [49, 53])
            (bytesOfHex (writerHashHex P metadata "gzip" "aes-256-gcm" salt) ++ be8 1)).length
          ++ P.hash256 [49, 53] ++ n1 ++ P.aesgcmE (P.kdf pw salt) n1 (P.gzipC [49, 53])
            (bytesOfHex (writerHashHex P metadata "gzip" "aes-256-gcm" salt) ++ be8 1)) ++ []) = _
    simp [List.append_assoc]
  refine ⟨_, ⟨writerHeader P metadata "gzip" "aes-256-gcm" salt, "gzip", "aes-256-gcm", 12,
      some (P.kdf pw salt),
      bytesOfHex (writerHashHex P metadata "gzip" "aes-256-gcm" salt)⟩, _,
    hws, readerInit_writer_enc P metadata salt _ pw hpw hmhh hsl hsb hhlen, rfl, ?_⟩
  rw [hframes]
  exact readChunks_two_enc P _ (P.kdf pw salt) n0 n1 rfl rfl rfl rfl hn0 hn1 hp0 hp1

/-- C2: container round-trip.  For every crypto-primitive bundle, every
pass-through metadata dict (avoiding the writer-managed header keys), and
the `os.urandom` draws made explicit, writing the byte chunks `b"14"`
(`[49, 52]`) then `b"15"` (`[49, 53]`) and reading the produced stream
back yields exactly those two chunks in order, with every caller-supplied
metadata key present unchanged in the reader's header — both for
`compression="none"`/`encryption="none"` and for `compression="gzip"` with
`encryption="aes-256-gcm"` under the same non-empty password. -/
theorem chunked_container_roundtrip (P : CryptoPrims) (metadata : HMap)
    (salt n0 n1 : List ℕ) (pw : String)
    (hm : ∀ p ∈ metadata, ¬ p.1 ∈ reservedKeys)
    (hpw : pw ≠ "") (hsl : salt.length = 16) (hsb : ∀ x ∈ salt, x < 256)
    (hn0 : n0.length = 12) (hn1 : n1.length = 12)
    (hhlen1 : (encHeader (writerHeader P metadata "none" "none" salt)).length < 2 ^ 32)
    (hhlen2 : (encHeader (writerHeader P metadata "gzip" "aes-256-gcm" salt)).length < 2 ^ 32)
    (hp0 : (P.aesgcmE (P.kdf pw salt) n0 (P.gzipC [49, 52])
        (bytesOfHex (writerHashHex P metadata "gzip" "aes-256-gcm" salt) ++ be8 0)).length < 2 ^ 32)
    (hp1 : (P.aesgcmE (P.kdf pw salt) n1 (P.gzipC [49, 53])
        (bytesOfHex (writerHashHex P metadata "gzip" "aes-256-gcm" salt) ++ be8 1)).length < 2 ^ 32) :
    (∃ s cfg cs,
      writerStream P metadata "none" "none" "" salt [] [[49, 52], [49, 53]] = .ok s ∧
      readerInit P s "" = .ok (cfg, cs) ∧
      readChunks P cfg 3 0 cs = .ok [[49, 52], [49, 53]] ∧
      ∀ k v, hget metadata k = some v → hget cfg.header k = some v) ∧
    (∃ s cfg cs,
      writerStream P metadata "gzip" "aes-256-gcm" pw salt [n0, n1] [[49, 52], [49, 53]]
        = .ok s ∧
      readerInit P s pw = .ok (cfg, cs) ∧
      readChunks P cfg 3 0 cs = .ok [[49, 52], [49, 53]] ∧
      ∀ k v, hget metadata k = some v → hget cfg.header k = some v) := by
  have hmhh : hget metadata "header_hash" = none :=
    hget_none_keys metadata _ (fun p hp hc => hm p hp (by rw [hc]; decide))
  constructor
  · obtain ⟨s, cfg, cs, h1, h2, h3, h4⟩ := chunked_roundtrip_plain P metadata salt hmhh hhlen1
    refine ⟨s, cfg, cs, h1, h2, h4, ?_⟩
    intro k v hkv
    obtain ⟨p, hp, hpk⟩ := hget_key_mem metadata k v hkv
    rw [h3, hget_writerHeader_nonreserved P metadata _ _ salt k (hpk ▸ hm p hp)]
    exact hkv
  · obtain ⟨s, cfg, cs, h1, h2, h3, h4⟩ := chunked_roundtrip_enc P metadata salt n0 n1 pw
      hpw hmhh hsl hsb hn0 hn1 hhlen2 hp0 hp1
    refine ⟨s, cfg, cs, h1, h2, h4, ?_⟩
    intro k v hkv
    obtain ⟨p, hp, hpk⟩ := hget_key_mem metadata k v hkv
    rw [h3, hget_writerHeader_nonreserved P metadata _ _ salt k (hpk ▸ hm p hp)]
    exact hkv

set_option maxRecDepth 200000 in
theorem chunked_container_roundtrip_witness :
    (∃ s cfg cs,
      writerStream toyPrims [("label", JVal.s "pi")] "none" "none" ""
          [0, 1, 2, 3, 4, 5, 6, 7, 8, 9, 10, 11, 12, 13, 14, 15] []
          [[49, 52], [49, 53]] = .ok s ∧
      readerInit toyPrims s "" = .ok (cfg, cs) ∧
      readChunks toyPrims cfg 3 0 cs = .ok [[49, 52], [49, 53]] ∧
      ∀ k v, hget [("label", JVal.s "pi")] k = some v → hget cfg.header k = some v) ∧
    (∃ s cfg cs,
      writerStream toyPrims [("label", JVal.s "pi")] "gzip" "aes-256-gcm" "pw"
          [0, 1, 2, 3, 4, 5, 6, 7, 8, 9, 10, 11, 12, 13, 14, 15]
          [[1, 1, 1, 1, 1, 1, 1, 1, 1, 1, 1, 1], [2, 2, 2, 2, 2, 2, 2, 2, 2, 2, 2, 2]]
          [[49, 52], [49, 53]] = .ok s ∧
      readerInit toyPrims s "pw" = .ok (cfg, cs) ∧
      readChunks toyPrims cfg 3 0 cs = .ok [[49, 52], [49, 53]] ∧
      ∀ k v, hget [("label", JVal.s "pi")] k = some v → hget cfg.header k = some v) :=
  chunked_container_roundtrip toyPrims [("label", JVal.s "pi")]
    [0, 1, 2, 3, 4, 5, 6, 7, 8, 9, 10, 11, 12, 13, 14, 15]
    [1, 1, 1, 1, 1, 1, 1, 1, 1, 1, 1, 1] [2, 2, 2, 2, 2, 2, 2, 2, 2, 2, 2, 2] "pw"
    (by decide) (by decide) (by decide) (by decide) (by decide) (by decide)
    (by decide) (by decide) (by decide) (by decide)

set_option maxRecDepth 200000 in
/-- A chunked stream whose header carries no `header_hash` field at all is
opened successfully by `ChunkedReader.__init__` — the integrity check is
skipped entirely, not reported as a mismatch. -/
theorem reader_accepts_hashless_header :
    (readerInit toyPrims (magicChunked
        ++ be4 (encHeader [("compression", JVal.s "none")]).length
        ++ encHeader [("compression", JVal.s "none")] ++ []) "").isOk = true := by
  decide

/-- C4 (amended): the reader rejects a container exactly when the header
STORES a truthy `header_hash` that differs from the hash recomputed over
the canonical encoding of the other header fields; when the field is
absent the check is skipped and a header-hash mismatch is never
reported. -/
theorem readerInit_header_hash_check (P : CryptoPrims) (hdr : HMap) (rest : List ℕ)
    (password : String) (hlen : (encHeader hdr).length < 2 ^ 32) :
    (∀ j, hget hdr "header_hash" = some j → jTruthy j = true →
      jEqString j (hexOfBytes (P.hash256 (encHeader (hremove hdr "header_hash")))) = false →
      readerInit P (magicChunked ++ be4 (encHeader hdr).length ++ encHeader hdr ++ rest)
          password = .error "header hash mismatch") ∧
    (hget hdr "header_hash" = none →
      readerInit P (magicChunked ++ be4 (encHeader hdr).length ++ encHeader hdr ++ rest)
          password ≠ .error "header hash mismatch") := by
  constructor
  · intro j hj ht hne
    rw [readerInit_parse P hdr rest password hlen, hj]
    simp [ht, hne]
  · intro hnone hcon
    rw [readerInit_parse P hdr rest password hlen, hnone] at hcon
    repeat' split at hcon
    all_goals simp_all

set_option maxRecDepth 200000 in
theorem readerInit_header_hash_check_witness :
    readerInit toyPrims (magicChunked
        ++ be4 (encHeader [("compression", JVal.s "none"),
            ("header_hash", JVal.s "00")]).length
        ++ encHeader [("compression", JVal.s "none"), ("header_hash", JVal.s "00")] ++ []) ""
      = .error "header hash mismatch" ∧
    readerInit toyPrims (magicChunked
        ++ be4 (encHeader [("compression", JVal.s "none")]).length
        ++ encHeader [("compression", JVal.s "none")] ++ []) ""
      ≠ .error "header hash mismatch" :=
  ⟨(readerInit_header_hash_check toyPrims
      [("compression", JVal.s "none"), ("header_hash", JVal.s "00")] [] "" (by decide)).1
      (JVal.s "00") (by decide) (by decide) (by decide),
   (readerInit_header_hash_check toyPrims
      [("compression", JVal.s "none")] [] "" (by decide)).2 (by decide)⟩

theorem combine_assoc (x y z : BSTuple) :
    _combine (_combine x y) z = _combine x (_combine y z) := by
  simp only [_combine, BSTuple.mk.injEq]
  refine ⟨by ring, by ring, by ring⟩

theorem combine_ident_left (x : BSTuple) : _combine ⟨1, 1, 0⟩ x = x := by
  cases x
  simp [_combine]

theorem combine_ident_right (x : BSTuple) : _combine x ⟨1, 1, 0⟩ = x := by
  cases x
  simp [_combine]

theorem foldl_combine_eq (x : BSTuple) (l : List BSTuple) :
    l.foldl _combine x = _combine x (l.foldl _combine ⟨1, 1, 0⟩) := by
  induction l generalizing x with
  | nil => exact (combine_ident_right x).symm
  | cons a l ih =>
    simp only [List.foldl_cons]
    rw [ih (_combine x a), ih (_combine ⟨1, 1, 0⟩ a), combine_ident_left,
      combine_assoc]

theorem prodRange_append {a m b : ℕ} (h1 : a ≤ m) (h2 : m ≤ b) :
    _combine (prodRange a m) (prodRange m b) = prodRange a b := by
  have hr : List.range' a (m - a) ++ List.range' m (b - m) = List.range' a (b - a) := by
    have h := List.range'_append_1 a (m - a) (b - m)
    rw [show a + (m - a) = m by omega, show b - m + (m - a) = b - a by omega] at h
    exact h
  unfold prodRange
  rw [← hr, List.map_append, List.foldl_append]
  exact (foldl_combine_eq _ _).symm

theorem bsAux_eq_prodRange :
    ∀ (fuel a b : ℕ), 0 < b - a → b - a ≤ fuel → bsAux fuel a b = prodRange a b := by
  intro fuel
  induction fuel with
  | zero => intro a b h1 h2; omega
  | succ fuel ih =>
    intro a b h1 h2
    unfold bsAux
    by_cases hone : b - a = 1
    · rw [if_pos hone]
      have hb : b = a + 1 := by omega
      subst hb
      unfold prodRange
      rw [show a + 1 - a = 1 by omega, List.range'_one]
      simp [combine_ident_left]
    · rw [if_neg hone]
      have ham : a < (a + b) / 2 := by omega
      have hmb : (a + b) / 2 < b := by omega
      rw [ih a ((a + b) / 2) (by omega) (by omega),
        ih ((a + b) / 2) b (by omega) (by omega)]
      exact prodRange_append (le_of_lt ham) (le_of_lt hmb)

theorem bs_eq_prodRange {a b : ℕ} (h : a < b) : _bs a b = prodRange a b :=
  bsAux_eq_prodRange (b - a) a b (by omega) le_rfl

theorem chain_lt_le_getLastD :
    ∀ (cs : List ℕ) (c : ℕ), List.Chain (· < ·) c cs → c ≤ cs.getLastD c := by
  intro cs
  induction cs with
  | nil => intro c _; exact le_rfl
  | cons d ds ih =>
    intro c h
    obtain ⟨hcd, hch⟩ := List.chain_cons.mp h
    rw [List.getLastD_cons]
    exact le_trans (le_of_lt hcd) (ih d hch)

theorem fold_ranges_bs :
    ∀ (cuts : List ℕ) (start : ℕ), List.Chain (· < ·) start cuts →
      (((start :: cuts).zip cuts).map (fun r => _bs r.1 r.2)).foldl _combine ⟨1, 1, 0⟩
        = prodRange start (cuts.getLastD start) := by
  intro cuts
  induction cuts with
  | nil =>
    intro start _
    show (⟨1, 1, 0⟩ : BSTuple) = prodRange start start
    unfold prodRange
    rw [Nat.sub_self]
    rfl
  | cons c cs ih =>
    intro start h
    obtain ⟨hsc, hch⟩ := List.chain_cons.mp h
    simp only [List.zip_cons_cons, List.map_cons, List.foldl_cons]
    rw [combine_ident_left, foldl_combine_eq, ih c hch, List.getLastD_cons,
      bs_eq_prodRange hsc]
    exact prodRange_append (le_of_lt hsc) (chain_lt_le_getLastD cs c hch)

theorem chudParallel_eq (terms cc : ℕ) (hc : 0 < cc) (hct : cc ≤ terms) :
    chudParallel terms cc = prodRange 0 terms := by
  have hmono : ∀ m, m < cc → terms * m / cc < terms * (m + 1) / cc := by
    intro m _
    have h1 : terms * m / cc + 1 = (terms * m + cc) / cc := (Nat.add_div_right _ hc).symm
    have h2 : terms * m + cc ≤ terms * (m + 1) := by
      rw [Nat.mul_succ]
      omega
    have h3 := Nat.div_le_div_right (c := cc) h2
    omega
  have hb : (0 : ℕ) :: (List.range cc).map (fun i => terms * (i + 1) / cc)
      = (List.range (cc + 1)).map (fun i => terms * i / cc) := by
    rw [List.range_succ_eq_map, List.map_cons, List.map_map]
    simp [Function.comp]
  have hchain : List.Chain (· < ·) 0 ((List.range cc).map (fun i => terms * (i + 1) / cc)) := by
    have h : List.Chain' (· < ·) ((List.range (cc + 1)).map (fun i => terms * i / cc)) := by
      rw [List.chain'_map, List.chain'_range_succ]
      intro m hm
      exact hmono m hm
    rw [← hb] at h
    exact h
  have hlast : ((List.range cc).map (fun i => terms * (i + 1) / cc)).getLastD 0 = terms := by
    obtain ⟨k, rfl⟩ : ∃ k, cc = k + 1 := ⟨cc - 1, by omega⟩
    rw [List.range_succ, List.map_append]
    simp only [List.map_cons, List.map_nil, List.getLastD_concat]
    rw [Nat.mul_div_cancel _ (by omega)]
  have h := fold_ranges_bs ((List.range cc).map (fun i => terms * (i + 1) / cc)) 0 hchain
  rw [hlast] at h
  exact h

theorem chudBS_eq (digits workers : ℕ) (hW : 1 ≤ workers) :
    chudBS digits workers = _bs 0 (chudTerms digits) := by
  unfold chudBS
  split_ifs with h
  · rfl
  · push_neg at h
    obtain ⟨hW1, hterms⟩ := h
    have ht2 : 2 ≤ chudTerms digits := by
      unfold chudTerms
      omega
    have hmin : 0 < min workers (chudTerms digits) := lt_min (by omega) (by omega)
    rw [chudParallel_eq _ _ hmin (min_le_right _ _), bs_eq_prodRange (by omega)]

set_option maxRecDepth 400000 in
/-- C1: for every `digits_after_point ≥ 0` and `workers ≥ 1`,
`chudnovsky_pi_decimal_string(D, W) = chudnovsky_pi_decimal_string(D, 1)`;
partitioning `[0, T)` into any number `cc ≤ T` of contiguous sub-ranges
at the source's bounds, computing each with `_bs` and folding the
partials left-to-right with `_combine` from the identity `(1,1,0)`
yields exactly `_bs(0, T)`; and `chudnovsky_pi_decimal_string(80, W)` is
the 80-digit reference string for every `W ≥ 1`. -/
theorem chudnovsky_parallel_equivalence (D W : ℕ) (hW : 1 ≤ W) :
    chudnovsky_pi_decimal_string D W = chudnovsky_pi_decimal_string D 1 ∧
    (∀ cc : ℕ, 0 < cc → cc ≤ chudTerms D →
      chudParallel (chudTerms D) cc = _bs 0 (chudTerms D)) ∧
    chudnovsky_pi_decimal_string 80 W =
      .ok "3.14159265358979323846264338327950288419716939937510582097494459230781640628620899" := by
  refine ⟨?_, ?_, ?_⟩
  · unfold chudnovsky_pi_decimal_string
    rw [if_neg (by omega), if_neg (by omega), chudBS_eq D W hW, chudBS_eq D 1 le_rfl]
  · intro cc h1 h2
    rw [chudParallel_eq _ _ h1 h2, bs_eq_prodRange (show 0 < chudTerms D by unfold chudTerms; omega)]
  · unfold chudnovsky_pi_decimal_string
    rw [if_neg (by omega), chudBS_eq 80 W hW]
    have hterms : chudTerms 80 = 7 := by unfold chudTerms; norm_num
    rw [hterms]
    have hbs : _bs 0 7 = ⟨304037168006446875,
        639554036404440688959664187989590610063102707223860112227474057717672124052618084352000000000000000000000,
        8692440486373479488193681896420748326258786137318401919696454816713740377067866881064352087819905752581203184375⟩ := by
      decide
    rw [hbs]
    have hnd : nDigits 10005 = 5 := by decide
    have harg : sqrtArg (80 + 20) 10005 = 10005 * 10 ^ 194 := by
      unfold sqrtArg sqrtShift
      rw [hnd]
    have hshift : sqrtShift (80 + 20) 10005 = 97 := by
      unfold sqrtShift
      rw [hnd]
    have hsqrt : Nat.sqrt (10005 * 10 ^ 194) =
        1000249968757810059447921878763577780015950243686963146571355115696509678538643042923111879484999732 := by
      refine le_antisymm ?_ ?_
      · have h := Nat.sqrt_lt.mpr
          (show 10005 * 10 ^ 194 <
            (1000249968757810059447921878763577780015950243686963146571355115696509678538643042923111879484999732 + 1) *
            (1000249968757810059447921878763577780015950243686963146571355115696509678538643042923111879484999732 + 1) by
              norm_num)
        omega
      · exact Nat.le_sqrt.mpr (by norm_num)
    have hsq : sqrtD (80 + 20) 10005 =
        ((1000249968757810059447921878763577780015950243686963146571355115696509678538643042923111879484999733 : ℤ), -97) := by
      unfold sqrtD
      rw [harg, hsqrt, hshift]
      rw [if_neg (by norm_num)]
      norm_num
    unfold chudFinal
    rw [hsq]
    decide

/-- C1 witness: instantiating `chudnovsky_parallel_equivalence` at
`workers = 4`: the result at 80 digits is the reference string (and, by
the theorem, the same for any worker count). -/
theorem chudnovsky_parallel_equivalence_witness :
    chudnovsky_pi_decimal_string 80 4 =
      .ok "3.14159265358979323846264338327950288419716939937510582097494459230781640628620899" :=
  (chudnovsky_parallel_equivalence 80 4 (by norm_num)).2.2

theorem spigot_reachable_invariant (n : ℕ) :
    1 ≤ (spigotIter n spigotInit).q ∧ 1 ≤ (spigotIter n spigotInit).t ∧
    3 ≤ (spigotIter n spigotInit).l ∧ 1 ≤ (spigotIter n spigotInit).k ∧
    (spigotIter n spigotInit).t ≠ 0 ∧
    (spigotIter n spigotInit).t * (spigotIter n spigotInit).l ≠ 0 := by
  obtain ⟨hq, ht, hl, hk⟩ := spigotInv_iter n
  refine ⟨hq, ht, hl, hk, by linarith, ?_⟩
  have : (0 : ℤ) < (spigotIter n spigotInit).t * (spigotIter n spigotInit).l := by positivity
  linarith

end Digitloom
